import Mathlib

/-
  Verification of the explicit-free-list allocator in mm.c.

  Modelling conventions (shallow embedding):
  * Memory is word-granular: `Mem := Nat → Nat` maps an 8-byte-aligned byte
    address to the 64-bit word stored there (as an unbounded Nat; all C values
    written are < 2^64).  The allocator only ever accesses memory at 8-aligned
    addresses: header/footer tag words and the 8-byte next/prev pointers.
  * A tag word packs the C bitfield `allocated:1, block_size:31` (plus 32
    unused padding bits): bit 0 is the allocated flag, bits 1..31 the size.
    Writing one bitfield preserves the other bits, exactly as in C.
  * Pointers are byte addresses stored as plain Nats; the null pointer is 0.
    The heap never starts at address 0, so 0 is never a valid block address.
  * `mem_sbrk` is modelled by a `brk` field in the state plus an explicit
    success flag parameter (the external growth primitive either grants the
    bytes at the current break or fails).
  * Loops (the free-list scan) take an explicit fuel argument; callers pass
    fuel at least the free-list length, which models the finite C traversal.
  * `memcpy` copies whole 8-byte words plus a little-endian partial last word.
-/

namespace MM

abbrev Mem := Nat → Nat

/-- Write the word `v` at address `a`. -/
def wr (m : Mem) (a v : Nat) : Mem := fun x => if x = a then v else m x

/-- Read the `allocated` bitfield of the tag word at `a` (bit 0). -/
def getAlloc (m : Mem) (a : Nat) : Bool := m a % 2 = 1

/-- Read the `block_size` bitfield of the tag word at `a` (bits 1..31). -/
def getSize (m : Mem) (a : Nat) : Nat := m a / 2 % 2 ^ 31

/-- Write the `allocated` bitfield at `a`, preserving the other bits. -/
def setAlloc (m : Mem) (a : Nat) (b : Bool) : Mem :=
  wr m a (2 * (m a / 2) + (if b then 1 else 0))

/-- Write the `block_size` bitfield at `a` (stored mod 2^31, like the 31-bit
    C bitfield), preserving bit 0 and the padding bits above bit 31. -/
def setSize (m : Mem) (a sz : Nat) : Mem :=
  wr m a (m a % 2 + 2 * (sz % 2 ^ 31) + 2 ^ 32 * (m a / 2 ^ 32))

/-- Read a stored pointer (a full word). -/
def getPtr (m : Mem) (a : Nat) : Nat := m a

/-- Store a pointer. -/
def setPtr (m : Mem) (a v : Nat) : Mem := wr m a v

/-- Allocator state: the memory, the explicit free list root `freerootptr`
    (0 for NULL), the address of the prologue block, and the current program
    break (the next address `mem_sbrk` would grant). -/
structure St where
  mem : Mem
  freeroot : Nat
  prologue : Nat
  brk : Nat

/-- CHUNKSIZE from mm.c: 1 <<< 16. -/
def CHUNKSIZE : Nat := 65536

/-- OVERHEAD from mm.c: sizeof header plus sizeof footer. -/
def OVERHEAD : Nat := 16

/-- MIN_BLOCK_SIZE from mm.c. -/
def MIN_BLOCK_SIZE : Nat := 32

/-- mm_init, transcribed from mm.c lines 128-150.  `start` is the address
    granted by the initial `mem_sbrk(CHUNKSIZE)` (assumed to succeed), `m0`
    the arbitrary prior contents of memory. -/
def mm_init (m0 : Mem) (start : Nat) : St :=
  let prologue := start
  let m1 := setAlloc m0 prologue true
  let m2 := setSize m1 prologue 8
  let ib := prologue + 8
  let m3 := setAlloc m2 ib false
  let m4 := setSize m3 ib (CHUNKSIZE - OVERHEAD)
  -- freerootptr := init_block; next and prev set to NULL
  let m5 := setPtr m4 (ib + 8) 0
  let m6 := setPtr m5 (ib + 16) 0
  -- init_footer := get_footer(init_block)
  let ftr := ib + getSize m6 ib - 8
  let m7 := setAlloc m6 ftr false
  let m8 := setSize m7 ftr (getSize m7 ib)
  -- epilogue
  let ep := ib + getSize m8 ib
  let m9 := setAlloc m8 ep true
  let m10 := setSize m9 ep 0
  { mem := m10, freeroot := ib, prologue := prologue, brk := start + CHUNKSIZE }

/-- find_fit, transcribed from mm.c lines 362-373: first-fit scan of the
    explicit free list starting at `b` (the caller passes the root). -/
def find_fit (m : Mem) (b : Nat) (asize : Nat) : Nat → Option Nat
  | 0 => none
  | fuel + 1 =>
    if b = 0 then none
    else if asize ≤ getSize m b then some b
    else find_fit m (getPtr m (b + 8)) asize fuel

/-- coalesce, transcribed statement by statement from mm.c lines 378-615.
    Every field access re-reads the current memory, exactly as the C code
    does; the addresses `prev_footer`, `next_header`, `next_block` and
    `prev_block` are computed once, where the C code declares them.
    Returns the new state and the returned block pointer. -/
def coalesce_aux (m0 : Mem) (root : Nat) (block : Nat) : Mem × Nat × Nat :=
  let prev_footer := block - 8
  let next_header := block + getSize m0 block
  let prev_alloc := getAlloc m0 prev_footer
  let next_alloc := getAlloc m0 next_header
  if prev_alloc && next_alloc then
    -- Case 1: no coalescing, push the block on the free list
    if root = 0 ∨ root = block then
      let m1 := setPtr m0 (block + 8) 0
      let m2 := setPtr m1 (block + 16) 0
      (m2, block, block)
    else
      let m1 := setPtr m0 (block + 8) root
      let m2 := setPtr m1 (root + 16) block
      let m3 := setPtr m2 (block + 16) 0
      (m3, block, block)
  else if prev_alloc && !next_alloc then
    -- Case 2: absorb the next block
    let next_block := block + getSize m0 block
    let m1 := if getPtr m0 (next_block + 16) ≠ 0 then
        setPtr m0 (getPtr m0 (next_block + 16) + 8) (getPtr m0 (next_block + 8)) else m0
    let m2 := if getPtr m1 (next_block + 8) ≠ 0 then
        setPtr m1 (getPtr m1 (next_block + 8) + 16) (getPtr m1 (next_block + 16)) else m1
    let mr :=
      if getPtr m2 (next_block + 8) ≠ 0 ∧ next_block = root then
        let m3 := setPtr m2 (block + 8) (getPtr m2 (next_block + 8))
        let m4 := setPtr m3 (getPtr m3 (next_block + 8) + 16) block
        let m5 := setPtr m4 (block + 16) 0
        let m6 := setPtr m5 (next_block + 8) 0
        (m6, block)
      else if getPtr m2 (next_block + 8) = 0 ∧ next_block = root then
        let m3 := setPtr m2 (block + 16) 0
        let m4 := setPtr m3 (block + 8) 0
        (m4, block)
      else
        let m3 := setPtr m2 (block + 8) root
        let m4 := setPtr m3 (root + 16) block
        let m5 := setPtr m4 (block + 16) 0
        (m5, block)
    let m6 := mr.1
    let m7 := setPtr m6 (next_block + 8) 0
    let m8 := setPtr m7 (next_block + 16) 0
    let m9 := setSize m8 block (getSize m8 block + getSize m8 next_header)
    let ftr := block + getSize m9 block - 8
    let m10 := setSize m9 ftr (getSize m9 block)
    (m10, mr.2, block)
  else if !prev_alloc && next_alloc then
    -- Case 3: absorb this block into the previous block
    let prev_block := block - 8 - getSize m0 prev_footer + 8
    let m1 := if getPtr m0 (prev_block + 16) ≠ 0 then
        setPtr m0 (getPtr m0 (prev_block + 16) + 8) (getPtr m0 (prev_block + 8)) else m0
    let m2 := if getPtr m1 (prev_block + 8) ≠ 0 then
        setPtr m1 (getPtr m1 (prev_block + 8) + 16) (getPtr m1 (prev_block + 16)) else m1
    let mr :=
      if getPtr m2 (prev_block + 8) ≠ 0 ∧ prev_block = root then
        (setPtr m2 (getPtr m2 (root + 8) + 16) prev_block, root)
      else if getPtr m2 (prev_block + 8) = 0 ∧ prev_block = root then
        (m2, root)
      else
        let m3 := setPtr m2 (prev_block + 8) root
        let m4 := setPtr m3 (root + 16) prev_block
        (m4, prev_block)
    let m5 := mr.1
    let m6 := setPtr m5 (prev_block + 16) 0
    let m7 := setPtr m6 (block + 16) 0
    let m8 := setPtr m7 (block + 8) 0
    let m9 := setSize m8 prev_block (getSize m8 prev_block + getSize m8 block)
    let ftr := prev_block + getSize m9 prev_block - 8
    let m10 := setSize m9 ftr (getSize m9 prev_block)
    (m10, mr.2, prev_block)
  else
    -- Case 4: absorb both neighbours
    let next_block := block + getSize m0 block
    let prev_block := block - 8 - getSize m0 prev_footer + 8
    let mr :=
      if getPtr m0 (prev_block + 8) = next_block then
        -- the two neighbours are adjacent in the list, prev first
        let m1 := if getPtr m0 (prev_block + 16) ≠ 0 then
            setPtr m0 (getPtr m0 (prev_block + 16) + 8) (getPtr m0 (next_block + 8)) else m0
        let m2 := if getPtr m1 (next_block + 8) ≠ 0 then
            setPtr m1 (getPtr m1 (next_block + 8) + 16) (getPtr m1 (prev_block + 16)) else m1
        let r1 := if prev_block = root ∧ getPtr m2 (next_block + 8) ≠ 0 then
            getPtr m2 (next_block + 8) else root
        let m3 := setPtr m2 (prev_block + 8) 0
        let m4 := setPtr m3 (next_block + 16) 0
        let mr2 :=
          if getPtr m4 (prev_block + 16) = 0 ∧ getPtr m4 (next_block + 8) = 0 then
            (m4, r1)
          else
            let m5 := setPtr m4 (prev_block + 8) r1
            let m6 := setPtr m5 (r1 + 16) prev_block
            let m7 := setPtr m6 (prev_block + 16) 0
            (m7, prev_block)
        let m8 := setPtr mr2.1 (next_block + 8) 0
        (m8, mr2.2)
      else if getPtr m0 (next_block + 8) = prev_block then
        -- adjacent in the list, next first
        let m1 := if getPtr m0 (next_block + 16) ≠ 0 then
            setPtr m0 (getPtr m0 (next_block + 16) + 8) (getPtr m0 (prev_block + 8)) else m0
        let m2 := if getPtr m1 (prev_block + 8) ≠ 0 then
            setPtr m1 (getPtr m1 (prev_block + 8) + 16) (getPtr m1 (next_block + 16)) else m1
        let r1 := if next_block = root ∧ getPtr m2 (prev_block + 8) ≠ 0 then
            getPtr m2 (prev_block + 8) else root
        let m3 := setPtr m2 (next_block + 8) 0
        let m4 := setPtr m3 (prev_block + 16) 0
        let mr2 :=
          if getPtr m4 (next_block + 16) = 0 ∧ getPtr m4 (prev_block + 8) = 0 then
            (m4, prev_block)
          else if getPtr m4 (next_block + 16) = 0 ∧ getPtr m4 (prev_block + 8) ≠ 0 then
            (setPtr m4 (getPtr m4 (prev_block + 8) + 16) prev_block, prev_block)
          else
            let m5 := setPtr m4 (prev_block + 8) r1
            let m6 := setPtr m5 (r1 + 16) prev_block
            let m7 := setPtr m6 (prev_block + 16) 0
            (m7, prev_block)
        let m8 := setPtr mr2.1 (next_block + 16) 0
        (m8, mr2.2)
      else
        -- not adjacent in the list: unlink both, then re-splice by root cases
        let m1 := if getPtr m0 (next_block + 16) ≠ 0 then
            setPtr m0 (getPtr m0 (next_block + 16) + 8) (getPtr m0 (next_block + 8)) else m0
        let m2 := if getPtr m1 (next_block + 8) ≠ 0 then
            setPtr m1 (getPtr m1 (next_block + 8) + 16) (getPtr m1 (next_block + 16)) else m1
        let m3 := if getPtr m2 (prev_block + 16) ≠ 0 then
            setPtr m2 (getPtr m2 (prev_block + 16) + 8) (getPtr m2 (prev_block + 8)) else m2
        let m4 := if getPtr m3 (prev_block + 8) ≠ 0 then
            setPtr m3 (getPtr m3 (prev_block + 8) + 16) (getPtr m3 (prev_block + 16)) else m3
        if prev_block ≠ root ∧ next_block ≠ root then
          let m5 := setPtr m4 (prev_block + 8) root
          let m6 := setPtr m5 (root + 16) prev_block
          let m7 := setPtr m6 (prev_block + 16) 0
          (m7, prev_block)
        else if prev_block = root ∧ next_block ≠ root then
          let m5 := setPtr m4 (getPtr m4 (root + 8) + 16) prev_block
          let m6 := setPtr m5 (getPtr m5 (root + 8) + 16) prev_block
          let m7 := setPtr m6 (root + 16) 0
          (m7, root)
        else if prev_block ≠ root ∧ next_block = root then
          let m5 := setPtr m4 (prev_block + 8) (getPtr m4 (next_block + 8))
          let m6 := setPtr m5 (getPtr m5 (next_block + 8) + 16) prev_block
          let m7 := setPtr m6 (prev_block + 16) 0
          (m7, prev_block)
        else
          (m4, root)
    let m9 := setSize mr.1 prev_block
        (getSize mr.1 prev_block + getSize mr.1 block + getSize mr.1 next_header)
    let ftr := prev_block + getSize m9 prev_block - 8
    let m10 := setSize m9 ftr (getSize m9 prev_block)
    (m10, mr.2, prev_block)

/-- coalesce wrapper: the C function mutates only the memory and the free
    list root; the state fields brk and prologue are untouched. -/
def coalesce (s : St) (block : Nat) : St × Nat :=
  let r := coalesce_aux s.mem s.freeroot block
  ({ s with mem := r.1, freeroot := r.2.1 }, r.2.2)

/-- extend_heap, transcribed from mm.c lines 263-291.  `sbrk_ok` tells
    whether the growth primitive succeeds. -/
def extend_heap (s : St) (words : Nat) (sbrk_ok : Bool) : Option (St × Nat) :=
  let size := words * 8 % 2 ^ 32
  if size = 0 ∨ sbrk_ok = false then none
  else
    let block := s.brk - 8
    let s1 : St := { s with brk := s.brk + size }
    let m1 := setAlloc s1.mem block false
    let m2 := setSize m1 block size
    let ftr := block + getSize m2 block - 8
    let m3 := setAlloc m2 ftr false
    let m4 := setSize m3 ftr (getSize m3 block)
    let ep := ftr + 8
    let m5 := setAlloc m4 ep true
    let m6 := setSize m5 ep 0
    let s2 : St := { s1 with mem := m6 }
    let s3 : St :=
      if s2.freeroot = 0 then
        { s2 with mem := setPtr (setPtr s2.mem (block + 8) 0) (block + 16) 0,
                  freeroot := block }
      else s2
    some (coalesce s3 block)

/-- place, transcribed from mm.c lines 299-356.  `split_size` is computed
    with size_t (64-bit wraparound) subtraction as in C. -/
def place_aux (m0 : Mem) (root0 : Nat) (block asize : Nat) : Mem × Nat :=
  let split_size := (getSize m0 block + 2 ^ 64 - asize) % 2 ^ 64
  if MIN_BLOCK_SIZE ≤ split_size then
    let m1 := setSize m0 block asize
    let m2 := setAlloc m1 block true
    let ftr := block + getSize m2 block - 8
    let m3 := setSize m2 ftr asize
    let m4 := setAlloc m3 ftr true
    let new_block := block + getSize m4 block
    let m5 := setSize m4 new_block split_size
    let m6 := setAlloc m5 new_block false
    let nftr := new_block + getSize m6 new_block - 8
    let m7 := setSize m6 nftr split_size
    let m8 := setAlloc m7 nftr false
    let m9 := if getPtr m8 (block + 16) ≠ 0 then
        setPtr m8 (getPtr m8 (block + 16) + 8) new_block else m8
    let m10 := if getPtr m9 (block + 8) ≠ 0 then
        setPtr m9 (getPtr m9 (block + 8) + 16) new_block else m9
    let m11 := setPtr m10 (new_block + 8) (getPtr m10 (block + 8))
    let m12 := setPtr m11 (new_block + 16) (getPtr m11 (block + 16))
    let m13 := setPtr m12 (block + 8) 0
    let m14 := setPtr m13 (block + 16) 0
    let root := if getPtr m14 (new_block + 16) = 0 then new_block else root0
    (m14, root)
  else
    let m1 := setAlloc m0 block true
    let ftr := block + getSize m1 block - 8
    let m2 := setAlloc m1 ftr true
    let m3 := if getPtr m2 (block + 16) ≠ 0 then
        setPtr m2 (getPtr m2 (block + 16) + 8) (getPtr m2 (block + 8)) else m2
    let m4 := if getPtr m3 (block + 8) ≠ 0 then
        setPtr m3 (getPtr m3 (block + 8) + 16) (getPtr m3 (block + 16)) else m3
    let root1 := if getPtr m4 (block + 16) = 0 ∧ getPtr m4 (block + 8) ≠ 0 then
        getPtr m4 (block + 8) else root0
    let root2 := if getPtr m4 (block + 16) = 0 ∧ getPtr m4 (block + 8) = 0 then 0 else root1
    let m5 := setPtr m4 (block + 8) 0
    let m6 := setPtr m5 (block + 16) 0
    (m6, root2)

/-- place wrapper: the C function mutates only the memory and the free
    list root. -/
def place (s : St) (block asize : Nat) : St :=
  let r := place_aux s.mem s.freeroot block asize
  { s with mem := r.1, freeroot := r.2 }

/-- Adjusted request size, from mm.c lines 167-174: the size_t request plus
    OVERHEAD, aligned up to a multiple of 8, truncated by the uint32_t
    assignment to `asize`, then raised to MIN_BLOCK_SIZE. -/
def adj_size (size : Nat) : Nat :=
  let size1 := (size + OVERHEAD) % 2 ^ 64
  let asize0 := (size1 + 7) / 8 * 8 % 2 ^ 32
  if asize0 < MIN_BLOCK_SIZE then MIN_BLOCK_SIZE else asize0

/-- mm_malloc, transcribed from mm.c lines 157-193.  The request size is a
    size_t value; the adjusted size `asize` is a uint32_t, so the C
    computation truncates it mod 2^32.  `fuel` bounds the free-list scan,
    `sbrk_ok` tells whether a growth request would succeed. -/
def mm_malloc (s : St) (size : Nat) (fuel : Nat) (sbrk_ok : Bool) : Option Nat × St :=
  if size = 0 then (none, s)
  else
    let asize := adj_size size
    match find_fit s.mem s.freeroot asize fuel with
    | some block => (some (block + 8), place s block asize)
    | none =>
      let extendsize := if asize > CHUNKSIZE then asize else CHUNKSIZE
      let extendwords := extendsize / 8
      match extend_heap s extendwords sbrk_ok with
      | some (s1, block) => (some (block + 8), place s1 block asize)
      | none => (none, s)

/-- mm_free, transcribed from mm.c lines 200-206. -/
def mm_free (s : St) (payload : Nat) : St :=
  let block := payload - 8
  let m1 := setAlloc s.mem block false
  let ftr := block + getSize m1 block - 8
  let m2 := setAlloc m1 ftr false
  (coalesce { s with mem := m2 } block).1

/-- Copy `k` whole words from `src` to `dst`. -/
def copyWords (m : Mem) (dst src : Nat) : Nat → Mem
  | 0 => m
  | k + 1 =>
    let m1 := copyWords m dst src k
    wr m1 (dst + 8 * k) (m1 (src + 8 * k))

/-- Byte-exact memcpy over word-granular memory: copy the whole words, then
    blend the low `n mod 8` bytes of the last partial word (words hold their
    8 bytes little-endian). -/
def memcpy (m : Mem) (dst src n : Nat) : Mem :=
  let q := n / 8
  let r := n % 8
  let m1 := copyWords m dst src q
  if r = 0 then m1
  else wr m1 (dst + 8 * q)
    (m1 (src + 8 * q) % 2 ^ (8 * r) + m1 (dst + 8 * q) / 2 ^ (8 * r) * 2 ^ (8 * r))

/-- The copy length mm_realloc passes to memcpy, from mm.c lines 222-225:
    the old block's full block_size (header read at ptr - 8), capped by the
    new request size. -/
def realloc_copySize (s1 : St) (ptr : Nat) (size : Nat) : Nat :=
  let block := ptr - 8
  let copySize0 := getSize s1.mem block
  if size < copySize0 then size else copySize0

/-- mm_realloc, transcribed from mm.c lines 214-229.  The C code prints an
    error and calls exit(1) when the internal mm_malloc fails; that
    process-terminating outcome is modelled as `none`. -/
def mm_realloc (s : St) (ptr : Nat) (size : Nat) (fuel : Nat) (sbrk_ok : Bool) :
    Option (Nat × St) :=
  match mm_malloc s size fuel sbrk_ok with
  | (none, _) => none
  | (some newp, s1) =>
    let copySize := realloc_copySize s1 ptr size
    let m2 := memcpy s1.mem newp ptr copySize
    let s2 := mm_free { s1 with mem := m2 } ptr
    some (newp, s2)

/-!  Observation layer: the heap walk from the prologue to the epilogue
     sentinel (following block sizes, as mm_checkheap does) and the free
     list walk (following next pointers from the root).  These are used to
     state the specification claims; `fuel` bounds the traversals.  -/

/-- Walk the heap starting at the first real block address `a`, returning
    for each block its address, block_size and allocated flag, stopping at
    the size-0 epilogue sentinel. -/
def heapWalk (m : Mem) (a : Nat) : Nat → List (Nat × Nat × Bool)
  | 0 => []
  | fuel + 1 =>
    let sz := getSize m a
    if sz = 0 then []
    else (a, sz, getAlloc m a) :: heapWalk m (a + sz) fuel

/-- Walk the explicit free list from node `b` following next pointers. -/
def freeWalk (m : Mem) (b : Nat) : Nat → List Nat
  | 0 => []
  | fuel + 1 => if b = 0 then [] else b :: freeWalk m (getPtr m (b + 8)) fuel

/-- Tag agreement for one block: header and footer agree on both the size
    field and the allocated flag (the footer of a block at `a` sits at
    address a + size - 8). -/
def tagsAgree (m : Mem) (a : Nat) : Prop :=
  getSize m (a + getSize m a - 8) = getSize m a ∧
  getAlloc m (a + getSize m a - 8) = getAlloc m a

instance (m : Mem) (a : Nat) : Decidable (tagsAgree m a) := by
  unfold tagsAgree; infer_instance

/-!  Well-formedness layer: a ghost description of the heap as a list of
     (size, allocated) pairs laid out consecutively after the prologue, and
     of the explicit free list as the list of its node addresses.  -/

/-- Total of the sizes of a block list. -/
def sumSizes (bs : List (Nat × Bool)) : Nat := (bs.map Prod.fst).sum

/-- A segment of consecutive blocks starting at `a`: each block's header
    and footer carry its size and allocated flag, sizes are at least
    MIN_BLOCK_SIZE and multiples of 8. -/
def layoutSeg (m : Mem) : Nat → List (Nat × Bool) → Prop
  | _, [] => True
  | a, (sz, al) :: rest =>
      getSize m a = sz ∧ getAlloc m a = al ∧
      getSize m (a + sz - 8) = sz ∧ getAlloc m (a + sz - 8) = al ∧
      MIN_BLOCK_SIZE ≤ sz ∧ sz % 8 = 0 ∧
      layoutSeg m (a + sz) rest

/-- The blocks of a segment with their addresses. -/
def blocksFrom : Nat → List (Nat × Bool) → List (Nat × Nat × Bool)
  | _, [] => []
  | a, (sz, al) :: rest => (a, sz, al) :: blocksFrom (a + sz) rest

/-- The addresses of all header and footer words of a segment, plus the
    word at its end (the epilogue header when the segment is the whole
    heap). -/
def tagAddrs : Nat → List (Nat × Bool) → List Nat
  | a, [] => [a]
  | a, (sz, _) :: rest => a :: (a + sz - 8) :: tagAddrs (a + sz) rest

/-- The addresses of the header and footer words of a segment only. -/
def blockTags : Nat → List (Nat × Bool) → List Nat
  | _, [] => []
  | a, (sz, _) :: rest => a :: (a + sz - 8) :: blockTags (a + sz) rest

/-- The explicit free list: starting from root-pointer value `r`, with
    expected back pointer `prev`, the chain of nodes is exactly `fs`. -/
def chainAt (m : Mem) : Nat → Nat → List Nat → Prop
  | _, r, [] => r = 0
  | prev, r, b :: rest =>
      r = b ∧ b ≠ 0 ∧ getPtr m (b + 16) = prev ∧
      chainAt m b (getPtr m (b + 8)) rest

/-- A segment of the free-list chain: from root-pointer value `r` with
    expected back pointer `prev`, the nodes `xs` are linked in order, and
    after them the cursor is the pair (lastv, nextr): `lastv` is the last
    node of `xs` (or `prev` when `xs` is empty) and `nextr` its stored next
    pointer (or `r`). -/
def chainSeg (m : Mem) : Nat → Nat → List Nat → Nat → Nat → Prop
  | prev, r, [], lastv, nextr => lastv = prev ∧ nextr = r
  | prev, r, b :: rest, lastv, nextr =>
      r = b ∧ b ≠ 0 ∧ getPtr m (b + 16) = prev ∧
      chainSeg m b (getPtr m (b + 8)) rest lastv nextr

/-- No two physically adjacent blocks are both free. -/
def noAdjacentFree : List (Nat × Bool) → Prop
  | [] => True
  | [_] => True
  | (_, al1) :: (sz2, al2) :: rest =>
      ¬(al1 = false ∧ al2 = false) ∧ noAdjacentFree ((sz2, al2) :: rest)

/-- The global heap shape, over a raw memory: prologue sentinel at `pro`
    (allocated, size 8, its header doubling as its footer), the block
    segment, the size-0 allocated epilogue sentinel, the break exactly past
    the epilogue, and the whole heap span below the 31-bit size capacity. -/
def LayoutM (m : Mem) (pro brk : Nat) (bs : List (Nat × Bool)) : Prop :=
  8 ≤ pro ∧
  getAlloc m pro = true ∧
  getSize m pro = 8 ∧
  layoutSeg m (pro + 8) bs ∧
  getSize m (pro + 8 + sumSizes bs) = 0 ∧
  getAlloc m (pro + 8 + sumSizes bs) = true ∧
  brk = pro + 8 + sumSizes bs + 8 ∧
  brk - pro < 2 ^ 31

/-- The heap shape of a state. -/
def Layout (s : St) (bs : List (Nat × Bool)) : Prop :=
  LayoutM s.mem s.prologue s.brk bs

/-- Full well-formedness over a raw memory and root: layout, free-list
    chain from the root, a block is free iff it is a chain member, chain
    members are free blocks, the chain has no duplicates, and no two
    adjacent blocks are both free. -/
def WFM (m : Mem) (root pro brk : Nat) (bs : List (Nat × Bool)) (fs : List Nat) : Prop :=
  LayoutM m pro brk bs ∧
  chainAt m 0 root fs ∧
  (∀ p ∈ blocksFrom (pro + 8) bs, (p.2.2 = false ↔ p.1 ∈ fs)) ∧
  (∀ b ∈ fs, ∃ p ∈ blocksFrom (pro + 8) bs, p.1 = b ∧ p.2.2 = false) ∧
  fs.Nodup ∧
  noAdjacentFree bs

/-- Full well-formedness of a state. -/
def WF (s : St) (bs : List (Nat × Bool)) (fs : List Nat) : Prop :=
  WFM s.mem s.freeroot s.prologue s.brk bs fs

instance layoutSegDec (m : Mem) : (a : Nat) → (bs : List (Nat × Bool)) →
    Decidable (layoutSeg m a bs)
  | _, [] => isTrue trivial
  | a, (sz, al) :: rest =>
    haveI := layoutSegDec m (a + sz) rest
    inferInstanceAs (Decidable (_ ∧ _))

instance chainAtDec (m : Mem) : (prev : Nat) → (r : Nat) → (fs : List Nat) →
    Decidable (chainAt m prev r fs)
  | _, r, [] => inferInstanceAs (Decidable (r = 0))
  | prev, r, b :: rest =>
    haveI := chainAtDec m b (getPtr m (b + 8)) rest
    inferInstanceAs (Decidable (_ ∧ _))

instance noAdjacentFreeDec : (bs : List (Nat × Bool)) → Decidable (noAdjacentFree bs)
  | [] => isTrue trivial
  | [_] => isTrue trivial
  | (_, al1) :: (sz2, al2) :: rest =>
    haveI := noAdjacentFreeDec ((sz2, al2) :: rest)
    inferInstanceAs (Decidable (_ ∧ _))

instance (m : Mem) (pro brk : Nat) (bs : List (Nat × Bool)) :
    Decidable (LayoutM m pro brk bs) := by
  unfold LayoutM; infer_instance

instance (s : St) (bs : List (Nat × Bool)) : Decidable (Layout s bs) := by
  unfold Layout; infer_instance

instance (m : Mem) (root pro brk : Nat) (bs : List (Nat × Bool)) (fs : List Nat) :
    Decidable (WFM m root pro brk bs fs) := by
  unfold WFM; infer_instance

instance (s : St) (bs : List (Nat × Bool)) (fs : List Nat) : Decidable (WF s bs fs) := by
  unfold WF; infer_instance

/-!  Concrete example states used by witnesses and counterexamples.  -/

/-- A fresh heap: all-zero initial memory, heap starting at address 8, so
    the prologue is at 8, the initial free block at 16 (size 65520), the
    epilogue at 65536 and the break at 65544. -/
def heap0 : St := mm_init (fun _ => 0) 8

/-- heap0 after four successful allocations of 16 bytes each: allocated
    blocks of size 32 at 16, 48, 80 and 112, the remaining free block at
    144 (size 65392), each payload at block + 8. -/
def heap4 : St :=
  (mm_malloc
    ((mm_malloc
      ((mm_malloc
        ((mm_malloc heap0 16 100 true).2) 16 100 true).2) 16 100 true).2) 16 100 true).2


/-!  Small arithmetic helpers relating C conditional idioms to min and max. -/

theorem ite_lt_eq_min (a b : Nat) : (if a < b then a else b) = min a b := by
  rcases Nat.lt_or_ge a b with h | h
  · rw [if_pos h, Nat.min_eq_left (Nat.le_of_lt h)]
  · rw [if_neg (Nat.not_lt.mpr h), Nat.min_eq_right h]

theorem ite_gt_eq_max (a b : Nat) : (if a > b then a else b) = max a b := by
  rcases Nat.lt_or_ge b a with h | h
  · rw [if_pos h, Nat.max_eq_left (Nat.le_of_lt h)]
  · rw [if_neg (Nat.not_lt.mpr h), Nat.max_eq_right h]

/-- coalesce never changes the break or the prologue pointer. -/
theorem coalesce_brk_prologue (s : St) (b : Nat) :
    ((coalesce s b).1).brk = s.brk ∧ ((coalesce s b).1).prologue = s.prologue :=
  ⟨rfl, rfl⟩

/-!  Read-over-write lemmas for the word memory and the tag bitfields.  -/

theorem wr_self (m : Mem) (a v : Nat) : wr m a v a = v := by
  unfold wr; simp

theorem wr_other (m : Mem) (a v x : Nat) (h : x ≠ a) : wr m a v x = m x := by
  unfold wr; simp [h]

theorem getPtr_setPtr_self (m : Mem) (a v : Nat) : getPtr (setPtr m a v) a = v :=
  wr_self m a v

theorem getPtr_setPtr_other (m : Mem) (a v x : Nat) (h : x ≠ a) :
    getPtr (setPtr m a v) x = getPtr m x := wr_other m a v x h

theorem getPtr_setSize_other (m : Mem) (a sz x : Nat) (h : x ≠ a) :
    getPtr (setSize m a sz) x = getPtr m x := wr_other m a _ x h

theorem getPtr_setAlloc_other (m : Mem) (a : Nat) (b : Bool) (x : Nat) (h : x ≠ a) :
    getPtr (setAlloc m a b) x = getPtr m x := wr_other m a _ x h

theorem getSize_setPtr_other (m : Mem) (a v x : Nat) (h : x ≠ a) :
    getSize (setPtr m a v) x = getSize m x := by
  unfold getSize setPtr; rw [wr_other m a v x h]

theorem getAlloc_setPtr_other (m : Mem) (a v x : Nat) (h : x ≠ a) :
    getAlloc (setPtr m a v) x = getAlloc m x := by
  unfold getAlloc setPtr; rw [wr_other m a v x h]

theorem getSize_setSize_other (m : Mem) (a sz x : Nat) (h : x ≠ a) :
    getSize (setSize m a sz) x = getSize m x := by
  unfold getSize setSize; rw [wr_other m a _ x h]

theorem getAlloc_setSize_other (m : Mem) (a sz x : Nat) (h : x ≠ a) :
    getAlloc (setSize m a sz) x = getAlloc m x := by
  unfold getAlloc setSize; rw [wr_other m a _ x h]

theorem getSize_setAlloc_other (m : Mem) (a : Nat) (b : Bool) (x : Nat) (h : x ≠ a) :
    getSize (setAlloc m a b) x = getSize m x := by
  unfold getSize setAlloc; rw [wr_other m a _ x h]

theorem getAlloc_setAlloc_other (m : Mem) (a : Nat) (b : Bool) (x : Nat) (h : x ≠ a) :
    getAlloc (setAlloc m a b) x = getAlloc m x := by
  unfold getAlloc setAlloc; rw [wr_other m a _ x h]

theorem getSize_setSize_self (m : Mem) (a sz : Nat) (h : sz < 2 ^ 31) :
    getSize (setSize m a sz) a = sz := by
  unfold getSize setSize; rw [wr_self]; omega

theorem getAlloc_setSize_self (m : Mem) (a sz : Nat) :
    getAlloc (setSize m a sz) a = getAlloc m a := by
  unfold getAlloc setSize; rw [wr_self]
  exact decide_eq_decide.mpr (by omega)

theorem getSize_setAlloc_self (m : Mem) (a : Nat) (b : Bool) :
    getSize (setAlloc m a b) a = getSize m a := by
  unfold getSize setAlloc; rw [wr_self]
  cases b <;> simp <;> omega

theorem getAlloc_setAlloc_self (m : Mem) (a : Nat) (b : Bool) :
    getAlloc (setAlloc m a b) a = b := by
  unfold getAlloc setAlloc; rw [wr_self]
  cases b <;> simp <;> omega

theorem getSize_congr {m m' : Mem} {x : Nat} (h : m' x = m x) :
    getSize m' x = getSize m x := by unfold getSize; rw [h]

theorem getAlloc_congr {m m' : Mem} {x : Nat} (h : m' x = m x) :
    getAlloc m' x = getAlloc m x := by unfold getAlloc; rw [h]

theorem getPtr_congr {m m' : Mem} {x : Nat} (h : m' x = m x) :
    getPtr m' x = getPtr m x := h

/-!  Structural lemmas about segments, blocks and tag addresses.  -/

theorem sumSizes_nil : sumSizes [] = 0 := rfl

theorem sumSizes_cons (sz : Nat) (al : Bool) (bs : List (Nat × Bool)) :
    sumSizes ((sz, al) :: bs) = sz + sumSizes bs := by
  unfold sumSizes; simp

theorem sumSizes_append (xs ys : List (Nat × Bool)) :
    sumSizes (xs ++ ys) = sumSizes xs + sumSizes ys := by
  unfold sumSizes; simp

theorem layoutSeg_append (m : Mem) (a : Nat) (xs ys : List (Nat × Bool)) :
    layoutSeg m a (xs ++ ys) ↔
      (layoutSeg m a xs ∧ layoutSeg m (a + sumSizes xs) ys) := by
  induction xs generalizing a with
  | nil => simp [layoutSeg, sumSizes_nil]
  | cons p rest ih =>
    obtain ⟨sz, al⟩ := p
    simp only [List.cons_append, layoutSeg, sumSizes_cons]
    have hE : a + (sz + sumSizes rest) = a + sz + sumSizes rest := by omega
    constructor
    · rintro ⟨h1, h2, h3, h4, h5, h6, h7⟩
      obtain ⟨ha, hb⟩ := (ih (a + sz)).mp h7
      exact ⟨⟨h1, h2, h3, h4, h5, h6, ha⟩, by rw [hE]; exact hb⟩
    · rintro ⟨⟨h1, h2, h3, h4, h5, h6, ha⟩, hb⟩
      rw [hE] at hb
      exact ⟨h1, h2, h3, h4, h5, h6, (ih (a + sz)).mpr ⟨ha, hb⟩⟩

theorem layoutSeg_sizes (m : Mem) (a : Nat) (bs : List (Nat × Bool))
    (h : layoutSeg m a bs) : ∀ p ∈ bs, MIN_BLOCK_SIZE ≤ p.1 ∧ p.1 % 8 = 0 := by
  induction bs generalizing a with
  | nil => intro p hp; cases hp
  | cons q rest ih =>
    obtain ⟨sz, al⟩ := q
    obtain ⟨_, _, _, _, h5, h6, h7⟩ := h
    intro p hp
    rcases List.mem_cons.mp hp with rfl | hp
    · exact ⟨h5, h6⟩
    · exact ih (a + sz) h7 p hp

theorem blocksFrom_append (a : Nat) (xs ys : List (Nat × Bool)) :
    blocksFrom a (xs ++ ys) = blocksFrom a xs ++ blocksFrom (a + sumSizes xs) ys := by
  induction xs generalizing a with
  | nil => simp [blocksFrom, sumSizes_nil]
  | cons p rest ih =>
    obtain ⟨sz, al⟩ := p
    simp only [List.cons_append, blocksFrom, sumSizes_cons, List.cons.injEq, true_and]
    rw [← Nat.add_assoc]
    exact ih (a + sz)

theorem mem_blocksFrom_decomp (a : Nat) (bs : List (Nat × Bool)) (p : Nat × Nat × Bool)
    (h : p ∈ blocksFrom a bs) :
    ∃ pre post, bs = pre ++ (p.2.1, p.2.2) :: post ∧ p.1 = a + sumSizes pre := by
  induction bs generalizing a with
  | nil => cases h
  | cons q rest ih =>
    obtain ⟨sz, al⟩ := q
    rcases List.mem_cons.mp h with rfl | h
    · exact ⟨[], rest, rfl, by simp [sumSizes_nil]⟩
    · obtain ⟨pre, post, hsplit, haddr⟩ := ih (a + sz) h
      exact ⟨(sz, al) :: pre, post, by rw [hsplit]; rfl,
        by rw [haddr, sumSizes_cons]; omega⟩

theorem decomp_mem_blocksFrom (a : Nat) (pre post : List (Nat × Bool)) (sz : Nat)
    (al : Bool) :
    (a + sumSizes pre, sz, al) ∈ blocksFrom a (pre ++ (sz, al) :: post) := by
  rw [blocksFrom_append]
  exact List.mem_append_right _ (List.mem_cons_self _ _)

theorem tagAddrs_lb (a : Nat) (bs : List (Nat × Bool))
    (hsz : ∀ p ∈ bs, 8 ≤ p.1) : ∀ t ∈ tagAddrs a bs, a ≤ t := by
  induction bs generalizing a with
  | nil => intro t ht; rcases List.mem_singleton.mp ht with rfl; exact le_refl _
  | cons q rest ih =>
    obtain ⟨sz, al⟩ := q
    have h8 : 8 ≤ sz := hsz (sz, al) (List.mem_cons_self _ _)
    intro t ht
    rcases List.mem_cons.mp ht with rfl | ht
    · exact le_refl _
    rcases List.mem_cons.mp ht with rfl | ht
    · omega
    · have := ih (a + sz) (fun p hp => hsz p (List.mem_cons_of_mem _ hp)) t ht
      omega

/-- A word address strictly inside a block's interior, before its footer,
    is not a tag address of the segment. -/
theorem inside_not_tagAddr (a : Nat) (bs : List (Nat × Bool))
    (hsz : ∀ p ∈ bs, 8 ≤ p.1)
    (pre post : List (Nat × Bool)) (sz : Nat) (al : Bool)
    (hsplit : bs = pre ++ (sz, al) :: post)
    (t : Nat) (ht1 : a + sumSizes pre < t) (ht2 : t < a + sumSizes pre + sz - 8) :
    t ∉ tagAddrs a bs := by
  subst hsplit
  induction pre generalizing a with
  | nil =>
    have h8 : 8 ≤ sz := hsz (sz, al) (by simp)
    rw [sumSizes_nil] at ht1 ht2
    intro ht
    rcases List.mem_cons.mp ht with rfl | ht
    · omega
    rcases List.mem_cons.mp ht with h | ht
    · omega
    · have := tagAddrs_lb (a + sz) post
        (fun p hp => hsz p (by simp [hp])) t ht
      omega
  | cons q pre' ih =>
    obtain ⟨sz0, al0⟩ := q
    have h80 : 8 ≤ sz0 := hsz (sz0, al0) (by simp)
    rw [sumSizes_cons] at ht1 ht2
    intro ht
    rcases List.mem_cons.mp ht with rfl | ht
    · omega
    rcases List.mem_cons.mp ht with h | ht
    · omega
    · exact ih (a + sz0) (by omega) (by omega)
        (fun p hp => hsz p (List.mem_cons_of_mem _ hp)) ht

/-- Reads of tag words are unchanged when the memories agree on all tag
    addresses of the segment. -/
theorem layoutSeg_congr {m m' : Mem} (a : Nat) (bs : List (Nat × Bool))
    (hagree : ∀ t ∈ blockTags a bs, m' t = m t)
    (h : layoutSeg m a bs) : layoutSeg m' a bs := by
  induction bs generalizing a with
  | nil => trivial
  | cons q rest ih =>
    obtain ⟨sz, al⟩ := q
    obtain ⟨h1, h2, h3, h4, h5, h6, h7⟩ := h
    have ha : m' a = m a := hagree a (by simp [blockTags])
    have hf : m' (a + sz - 8) = m (a + sz - 8) := hagree _ (by simp [blockTags])
    exact ⟨by rw [getSize_congr ha, h1], by rw [getAlloc_congr ha, h2],
      by rw [getSize_congr hf, h3], by rw [getAlloc_congr hf, h4], h5, h6,
      ih (a + sz) (fun t ht => hagree t (by simp [blockTags, ht])) h7⟩

/-- Block tags are among the tag addresses. -/
theorem blockTags_subset_tagAddrs (a : Nat) (bs : List (Nat × Bool)) :
    ∀ t ∈ blockTags a bs, t ∈ tagAddrs a bs := by
  induction bs generalizing a with
  | nil => intro t ht; cases ht
  | cons q rest ih =>
    obtain ⟨sz, al⟩ := q
    intro t ht
    simp only [blockTags, List.mem_cons] at ht
    simp only [tagAddrs, List.mem_cons]
    rcases ht with rfl | rfl | ht
    · exact Or.inl rfl
    · exact Or.inr (Or.inl rfl)
    · exact Or.inr (Or.inr (ih (a + sz) t ht))

/-- Block tags of a prefix are block tags of the appended list. -/
theorem blockTags_append_left (a : Nat) (xs ys : List (Nat × Bool)) :
    ∀ t ∈ blockTags a xs, t ∈ blockTags a (xs ++ ys) := by
  induction xs generalizing a with
  | nil => intro t ht; cases ht
  | cons q rest ih =>
    obtain ⟨sz, al⟩ := q
    intro t ht
    simp only [blockTags, List.mem_cons] at ht
    simp only [List.cons_append, blockTags, List.mem_cons]
    rcases ht with rfl | rfl | ht
    · exact Or.inl rfl
    · exact Or.inr (Or.inl rfl)
    · exact Or.inr (Or.inr (ih (a + sz) t ht))

/-- Block tags of a suffix are block tags of the appended list. -/
theorem blockTags_append_right (a : Nat) (xs ys : List (Nat × Bool)) :
    ∀ t ∈ blockTags (a + sumSizes xs) ys, t ∈ blockTags a (xs ++ ys) := by
  induction xs generalizing a with
  | nil =>
    intro t ht
    have : sumSizes ([] : List (Nat × Bool)) = 0 := rfl
    rw [this, Nat.add_zero] at ht
    exact ht
  | cons q rest ih =>
    obtain ⟨sz, al⟩ := q
    intro t ht
    simp only [List.cons_append, blockTags, List.mem_cons]
    right; right
    apply ih (a + sz)
    rw [sumSizes_cons] at ht
    rw [show a + sz + sumSizes rest = a + (sz + sumSizes rest) by omega]
    exact ht

/-- Bounds for block tags: they lie in the segment span, with footers at
    least 8 before the end provided sizes are at least 8. -/
theorem blockTags_bounds (a : Nat) (bs : List (Nat × Bool))
    (hsz : ∀ q ∈ bs, 8 ≤ q.1) :
    ∀ t ∈ blockTags a bs, a ≤ t ∧ t ≤ a + sumSizes bs - 8 := by
  induction bs generalizing a with
  | nil => intro t ht; cases ht
  | cons q rest ih =>
    obtain ⟨sz, al⟩ := q
    have h8 : 8 ≤ sz := hsz (sz, al) (List.mem_cons_self _ _)
    intro t ht
    rw [sumSizes_cons]
    simp only [blockTags, List.mem_cons] at ht
    rcases ht with rfl | rfl | ht
    · omega
    · omega
    · have := ih (a + sz) (fun p hp => hsz p (List.mem_cons_of_mem _ hp)) t ht
      omega

/-- The header and footer of the distinguished block of a decomposition
    are tag addresses. -/
theorem start_mem_tagAddrs (a : Nat) (pre post : List (Nat × Bool)) (sz : Nat) (al : Bool) :
    a + sumSizes pre ∈ tagAddrs a (pre ++ (sz, al) :: post) ∧
    a + sumSizes pre + sz - 8 ∈ tagAddrs a (pre ++ (sz, al) :: post) := by
  induction pre generalizing a with
  | nil =>
    constructor
    · simp [tagAddrs, sumSizes_nil]
    · simp [tagAddrs, sumSizes_nil]
  | cons q rest ih =>
    obtain ⟨sz0, al0⟩ := q
    rw [sumSizes_cons]
    have := ih (a + sz0)
    constructor
    · simp only [List.cons_append, tagAddrs, List.mem_cons]
      right; right
      rw [show a + (sz0 + sumSizes rest) = a + sz0 + sumSizes rest by omega]
      exact this.1
    · simp only [List.cons_append, tagAddrs, List.mem_cons]
      right; right
      rw [show a + (sz0 + sumSizes rest) = a + sz0 + sumSizes rest by omega]
      exact this.2

/-- A free-list chain is unchanged when the memories agree on the pointer
    fields of all its nodes. -/
theorem chainAt_congr {m m' : Mem} (fs : List Nat) (prev r : Nat)
    (hagree : ∀ b ∈ fs, m' (b + 8) = m (b + 8) ∧ m' (b + 16) = m (b + 16))
    (h : chainAt m prev r fs) : chainAt m' prev r fs := by
  induction fs generalizing prev r with
  | nil => exact h
  | cons b rest ih =>
    obtain ⟨hr, hb0, hprev, hnext⟩ := h
    have hb := hagree b (List.mem_cons_self _ _)
    refine ⟨hr, hb0, ?_, ?_⟩
    · show m' (b + 16) = prev
      rw [hb.2]; exact hprev
    · have : getPtr m' (b + 8) = getPtr m (b + 8) := hb.1
      rw [this]
      exact ih b _ (fun u hu => hagree u (List.mem_cons_of_mem _ hu)) hnext

/-- A chain over an appended list splits into a segment and a chain
    continuing from the segment's cursor. -/
theorem chainAt_append_iff (m : Mem) (xs ys : List Nat) (prev r : Nat) :
    chainAt m prev r (xs ++ ys) ↔
      ∃ lv nr, chainSeg m prev r xs lv nr ∧ chainAt m lv nr ys := by
  induction xs generalizing prev r with
  | nil =>
    constructor
    · intro h; exact ⟨prev, r, ⟨rfl, rfl⟩, h⟩
    · rintro ⟨lv, nr, ⟨rfl, rfl⟩, h⟩; exact h
  | cons b rest ih =>
    constructor
    · rintro ⟨hr, hb0, hprev, hnext⟩
      obtain ⟨lv, nr, hseg, hch⟩ := (ih b (getPtr m (b + 8))).mp hnext
      exact ⟨lv, nr, ⟨hr, hb0, hprev, hseg⟩, hch⟩
    · rintro ⟨lv, nr, ⟨hr, hb0, hprev, hseg⟩, hch⟩
      exact ⟨hr, hb0, hprev, (ih b (getPtr m (b + 8))).mpr ⟨lv, nr, hseg, hch⟩⟩

/-- A chain segment is unchanged when the memories agree on the pointer
    fields of all its nodes. -/
theorem chainSeg_congr {m m' : Mem} (xs : List Nat) (prev r lv nr : Nat)
    (hagree : ∀ b ∈ xs, m' (b + 8) = m (b + 8) ∧ m' (b + 16) = m (b + 16))
    (h : chainSeg m prev r xs lv nr) : chainSeg m' prev r xs lv nr := by
  induction xs generalizing prev r with
  | nil => exact h
  | cons b rest ih =>
    obtain ⟨hr, hb0, hprev, hseg⟩ := h
    have hb := hagree b (List.mem_cons_self _ _)
    refine ⟨hr, hb0, ?_, ?_⟩
    · show m' (b + 16) = prev
      rw [hb.2]; exact hprev
    · have he : getPtr m' (b + 8) = getPtr m (b + 8) := hb.1
      rw [he]
      exact ih b _ (fun u hu => hagree u (List.mem_cons_of_mem _ hu)) hseg

/-- The cursor of a non-empty segment is its last node and that node's
    stored next pointer. -/
theorem chainSeg_last (m : Mem) (xs : List Nat) (prev r lv nr : Nat)
    (h : chainSeg m prev r xs lv nr) :
    (xs = [] ∧ lv = prev ∧ nr = r) ∨ (lv ∈ xs ∧ nr = getPtr m (lv + 8)) := by
  induction xs generalizing prev r with
  | nil => exact Or.inl ⟨rfl, h.1, h.2⟩
  | cons b rest ih =>
    obtain ⟨hr, hb0, hprev, hseg⟩ := h
    rcases ih b (getPtr m (b + 8)) hseg with ⟨rfl, h1, h2⟩ | ⟨h1, h2⟩
    · exact Or.inr ⟨by rw [h1]; exact List.mem_cons_self _ _, by rw [h2, h1]⟩
    · exact Or.inr ⟨List.mem_cons_of_mem _ h1, h2⟩

/-- Rewriting the stored next pointer of a segment's last node moves the
    cursor, provided the write does not alias any other pointer field of
    the segment (nodes at least 24 apart). -/
theorem chainSeg_set_last_next (m : Mem) (xs : List Nat) (prev r lv nr w : Nat)
    (h : chainSeg m prev r xs lv nr) (hne : xs ≠ []) (hnodup : xs.Nodup)
    (hsep : ∀ x ∈ xs, x ≠ lv → x + 8 ≠ lv) :
    chainSeg (setPtr m (lv + 8) w) prev r xs lv w := by
  induction xs generalizing prev r with
  | nil => exact absurd rfl hne
  | cons b rest ih =>
    obtain ⟨hr, hb0, hprev, hseg⟩ := h
    rcases chainSeg_last m rest b (getPtr m (b + 8)) lv nr hseg with
      ⟨rfl, hlv, hnr⟩ | ⟨hlv, hnr⟩
    · -- the head is the last node: rewrite its next field
      subst hlv
      refine ⟨hr, hb0, ?_, rfl, ?_⟩
      · show getPtr (setPtr m (lv + 8) w) (lv + 16) = prev
        rw [getPtr_setPtr_other _ _ _ _ (by omega)]; exact hprev
      · exact (getPtr_setPtr_self m (lv + 8) w).symm
    · -- the head is an earlier node; its fields are untouched
      have hbne : b ≠ lv := fun hEq => (List.nodup_cons.mp hnodup).1 (hEq ▸ hlv)
      have hb16 : b + 16 ≠ lv + 8 := by
        intro hEq
        exact hsep b (List.mem_cons_self _ _) hbne (by omega)
      refine ⟨hr, hb0, ?_, ?_⟩
      · show getPtr (setPtr m (lv + 8) w) (b + 16) = prev
        rw [getPtr_setPtr_other _ _ _ _ hb16]; exact hprev
      · rw [getPtr_setPtr_other _ _ _ _ (by omega : b + 8 ≠ lv + 8)]
        exact ih b (getPtr m (b + 8)) hseg (List.ne_nil_of_mem hlv)
          (List.nodup_cons.mp hnodup).2
          (fun x hx hxne => hsep x (List.mem_cons_of_mem _ hx) hxne)

/-- Every block of a segment lies between the segment start and end. -/
theorem blocksFrom_bounds (a : Nat) (bs : List (Nat × Bool)) :
    ∀ p ∈ blocksFrom a bs, a ≤ p.1 ∧ p.1 + p.2.1 ≤ a + sumSizes bs := by
  induction bs generalizing a with
  | nil => intro p hp; cases hp
  | cons q rest ih =>
    obtain ⟨sz, al⟩ := q
    intro p hp
    rw [sumSizes_cons]
    rcases List.mem_cons.mp hp with rfl | hp
    · dsimp only
      omega
    · have := ih (a + sz) p hp
      omega

/-- Distinct blocks of a segment are separated by at least 32 bytes. -/
theorem blocksFrom_sep (a : Nat) (bs : List (Nat × Bool))
    (h32 : ∀ q ∈ bs, 32 ≤ q.1) :
    ∀ p ∈ blocksFrom a bs, ∀ q ∈ blocksFrom a bs,
      p.1 = q.1 ∨ p.1 + 32 ≤ q.1 ∨ q.1 + 32 ≤ p.1 := by
  induction bs generalizing a with
  | nil => intro p hp; cases hp
  | cons e rest ih =>
    obtain ⟨sz, al⟩ := e
    have hsz : 32 ≤ sz := h32 (sz, al) (List.mem_cons_self _ _)
    have hrest32 : ∀ q ∈ rest, 32 ≤ q.1 :=
      fun q hq => h32 q (List.mem_cons_of_mem _ hq)
    intro p hp q hq
    rcases List.mem_cons.mp hp with rfl | hp <;>
      rcases List.mem_cons.mp hq with rfl | hq
    · exact Or.inl rfl
    · have := (blocksFrom_bounds (a + sz) rest q hq).1
      right; left
      dsimp only at this ⊢
      omega
    · have := (blocksFrom_bounds (a + sz) rest p hp).1
      right; right
      dsimp only at this ⊢
      omega
    · exact ih (a + sz) hrest32 p hp q hq

/-- Two blocks of a segment with the same address are the same entry. -/
theorem blocksFrom_addr_inj (a : Nat) (bs : List (Nat × Bool))
    (h32 : ∀ q ∈ bs, 32 ≤ q.1) :
    ∀ p ∈ blocksFrom a bs, ∀ q ∈ blocksFrom a bs, p.1 = q.1 → p = q := by
  induction bs generalizing a with
  | nil => intro p hp; cases hp
  | cons e rest ih =>
    obtain ⟨sz, al⟩ := e
    have hsz : 32 ≤ sz := h32 (sz, al) (List.mem_cons_self _ _)
    have hrest32 : ∀ q ∈ rest, 32 ≤ q.1 :=
      fun q hq => h32 q (List.mem_cons_of_mem _ hq)
    intro p hp q hq hpq
    rcases List.mem_cons.mp hp with rfl | hp <;>
      rcases List.mem_cons.mp hq with rfl | hq
    · rfl
    · have := (blocksFrom_bounds (a + sz) rest q hq).1
      exact absurd hpq (by dsimp only at this ⊢; omega)
    · have := (blocksFrom_bounds (a + sz) rest p hp).1
      exact absurd hpq (by dsimp only at this ⊢; omega)
    · exact ih (a + sz) hrest32 p hp q hq hpq

/-- noAdjacentFree over an appended decomposition, given the joints. -/
theorem noAdjacentFree_append (pre post : List (Nat × Bool)) (sz : Nat) (al : Bool)
    (hpre : noAdjacentFree pre) (hpost : noAdjacentFree post)
    (hjl : ∀ p, pre.getLast? = some p → ¬(p.2 = false ∧ al = false))
    (hjr : ∀ q, post.head? = some q → ¬(al = false ∧ q.2 = false)) :
    noAdjacentFree (pre ++ (sz, al) :: post) := by
  induction pre with
  | nil =>
    cases post with
    | nil => trivial
    | cons q rest => exact ⟨hjr q rfl, hpost⟩
  | cons e pre' ih =>
    obtain ⟨sz0, al0⟩ := e
    cases pre' with
    | nil =>
      refine ⟨?_, ih trivial (by intro p hp; cases hp)⟩
      exact hjl (sz0, al0) (by simp)
    | cons e2 pre'' =>
      obtain ⟨h1, h2⟩ := hpre
      exact ⟨h1, ih h2 (fun p hp => hjl p (by rw [List.getLast?_cons_cons]; exact hp))⟩

/-- noAdjacentFree restricted to the two sides of a decomposition. -/
theorem noAdjacentFree_split (pre post : List (Nat × Bool)) (sz : Nat) (al : Bool)
    (h : noAdjacentFree (pre ++ (sz, al) :: post)) :
    noAdjacentFree pre ∧ noAdjacentFree post ∧
    (∀ p, pre.getLast? = some p → ¬(p.2 = false ∧ al = false)) ∧
    (∀ q, post.head? = some q → ¬(al = false ∧ q.2 = false)) := by
  induction pre with
  | nil =>
    refine ⟨trivial, ?_, ?_, ?_⟩
    · cases post with
      | nil => trivial
      | cons q rest => exact h.2
    · intro p hp; cases hp
    · intro q hq
      cases post with
      | nil => cases hq
      | cons q2 rest =>
        rw [show (q2 :: rest).head? = some q2 from rfl, Option.some_inj] at hq
        subst hq
        exact h.1
  | cons e pre' ih =>
    obtain ⟨sz0, al0⟩ := e
    cases pre' with
    | nil =>
      obtain ⟨h1, h2⟩ := h
      obtain ⟨_, hb, _, hd⟩ := ih h2
      refine ⟨trivial, hb, ?_, hd⟩
      intro p hp
      rw [show ([(sz0, al0)] : List (Nat × Bool)).getLast? = some (sz0, al0) from rfl,
        Option.some_inj] at hp
      subst hp
      exact h1
    | cons e2 pre'' =>
      obtain ⟨h1, h2⟩ := h
      obtain ⟨ha, hb, hc, hd⟩ := ih h2
      exact ⟨⟨h1, ha⟩, hb,
        fun p hp => hc p (by rwa [List.getLast?_cons_cons] at hp), hd⟩

/-- All nodes of a chain are nonzero. -/
theorem chainAt_nonzero (m : Mem) (fs : List Nat) (prev r : Nat)
    (h : chainAt m prev r fs) : ∀ b ∈ fs, b ≠ 0 := by
  induction fs generalizing prev r with
  | nil => intro b hb; cases hb
  | cons b rest ih =>
    intro u hu
    rcases List.mem_cons.mp hu with rfl | hu
    · exact h.2.1
    · exact ih b (getPtr m (b + 8)) h.2.2.2 u hu

/-- The root of a nonempty chain is its head. -/
theorem chainAt_root (m : Mem) (fs : List Nat) (prev r : Nat)
    (h : chainAt m prev r fs) : (fs = [] ∧ r = 0) ∨ (∃ rest, fs = r :: rest) := by
  cases fs with
  | nil => exact Or.inl ⟨rfl, h⟩
  | cons b rest => exact Or.inr ⟨rest, by rw [h.1]⟩

theorem setPtr_other (m : Mem) (a v x : Nat) (h : x ≠ a) : setPtr m a v x = m x :=
  wr_other m a v x h

theorem setSize_other (m : Mem) (a sz x : Nat) (h : x ≠ a) : setSize m a sz x = m x :=
  wr_other m a _ x h

theorem setAlloc_other (m : Mem) (a : Nat) (b : Bool) (x : Nat) (h : x ≠ a) :
    setAlloc m a b x = m x := wr_other m a _ x h

/-- The segment end address is among the tag addresses. -/
theorem tagAddrs_end_mem (a : Nat) (bs : List (Nat × Bool)) :
    a + sumSizes bs ∈ tagAddrs a bs := by
  induction bs generalizing a with
  | nil => simp [tagAddrs, sumSizes_nil]
  | cons p rest ih =>
    obtain ⟨sz, al⟩ := p
    rw [sumSizes_cons]
    have := ih (a + sz)
    simp only [tagAddrs, List.mem_cons]
    right; right
    rw [← Nat.add_assoc]
    exact this

/-- Layout is preserved by memory changes that agree on the prologue word
    and every tag address. -/
theorem LayoutM_congr {m m' : Mem} (pro brk : Nat) (bs : List (Nat × Bool))
    (h : LayoutM m pro brk bs)
    (hagree : ∀ t, t = pro ∨ t ∈ tagAddrs (pro + 8) bs → m' t = m t) :
    LayoutM m' pro brk bs := by
  obtain ⟨h1, h2, h3, h4, h5, h6, h7, h8⟩ := h
  have hpro : m' pro = m pro := hagree pro (Or.inl rfl)
  have hep : m' (pro + 8 + sumSizes bs) = m (pro + 8 + sumSizes bs) :=
    hagree _ (Or.inr (tagAddrs_end_mem _ _))
  exact ⟨h1, by rw [getAlloc_congr hpro, h2], by rw [getSize_congr hpro, h3],
    layoutSeg_congr _ _ (fun t ht =>
      hagree t (Or.inr (blockTags_subset_tagAddrs _ _ t ht))) h4,
    by rw [getSize_congr hep, h5], by rw [getAlloc_congr hep, h6], h7, h8⟩

/-- Distinct blocks of a segment occupy disjoint address ranges. -/
theorem blocksFrom_disjoint (a : Nat) (bs : List (Nat × Bool)) :
    ∀ p ∈ blocksFrom a bs, ∀ q ∈ blocksFrom a bs,
      p.1 = q.1 ∨ p.1 + p.2.1 ≤ q.1 ∨ q.1 + q.2.1 ≤ p.1 := by
  induction bs generalizing a with
  | nil => intro p hp; cases hp
  | cons e rest ih =>
    obtain ⟨sz, al⟩ := e
    intro p hp q hq
    rcases List.mem_cons.mp hp with rfl | hp <;>
      rcases List.mem_cons.mp hq with rfl | hq
    · exact Or.inl rfl
    · have := (blocksFrom_bounds (a + sz) rest q hq).1
      right; left
      dsimp only at this ⊢
      omega
    · have := (blocksFrom_bounds (a + sz) rest p hp).1
      right; right
      dsimp only at this ⊢
      omega
    · exact ih (a + sz) p hp q hq

/-- A prologue word or tag address differs from any address strictly
    inside a block's interior before its footer. -/
theorem tag_ne_inside (pro : Nat) (bs pre post : List (Nat × Bool)) (sz : Nat) (al : Bool)
    (hsplit : bs = pre ++ (sz, al) :: post)
    (hsz : ∀ q ∈ bs, 8 ≤ q.1)
    (t x : Nat) (ht : t = pro ∨ t ∈ tagAddrs (pro + 8) bs)
    (hx1 : pro + 8 + sumSizes pre < x) (hx2 : x < pro + 8 + sumSizes pre + sz - 8) :
    t ≠ x := by
  rcases ht with rfl | ht
  · omega
  · intro hEq
    subst hEq
    exact inside_not_tagAddr (pro + 8) bs hsz pre post sz al hsplit t hx1 hx2 ht

/-- Case-1 path of coalesce (both neighbours allocated, empty root or
    self-rooted list): the block is linked as the sole list node. -/
theorem coalesce_aux_case1_nil (m : Mem) (root b : Nat)
    (hpa : getAlloc m (b - 8) = true)
    (hna : getAlloc m (b + getSize m b) = true)
    (hroot : root = 0 ∨ root = b) :
    coalesce_aux m root b = (setPtr (setPtr m (b + 8) 0) (b + 16) 0, b, b) := by
  unfold coalesce_aux
  dsimp only
  rw [hpa, hna]
  simp only [Bool.and_self, eq_self_iff_true, if_true]
  rw [if_pos hroot]

/-- Case-1 path of coalesce (both neighbours allocated, nonempty list):
    the block is pushed at the head of the free list. -/
theorem coalesce_aux_case1_cons (m : Mem) (root b : Nat)
    (hpa : getAlloc m (b - 8) = true)
    (hna : getAlloc m (b + getSize m b) = true)
    (hroot : ¬(root = 0 ∨ root = b)) :
    coalesce_aux m root b =
      (setPtr (setPtr (setPtr m (b + 8) root) (root + 16) b) (b + 16) 0, b, b) := by
  unfold coalesce_aux
  dsimp only
  rw [hpa, hna]
  simp only [Bool.and_self, eq_self_iff_true, if_true]
  rw [if_neg hroot]



/-!  Claim theorems.  -/

/-- C9: on a fresh heap the initial free block at 16 has size 65520;
    allocate(16) returns the non-null payload pointer 24, and the block is
    split into an allocated block of exactly 32 bytes at 16 and a remainder
    free block at 48 of size 65520 - 32 = 65488, which is the whole free
    list. -/
theorem C9_fresh_alloc16_splits :
    heapWalk heap0.mem (heap0.prologue + 8) 4 = [(16, 65520, false)] ∧
    (mm_malloc heap0 16 1 true).1 = some 24 ∧
    heapWalk (mm_malloc heap0 16 1 true).2.mem (heap0.prologue + 8) 4 =
      [(16, 32, true), (48, 65488, false)] ∧
    65488 = 65520 - 32 ∧ 32 = 16 + OVERHEAD ∧ MIN_BLOCK_SIZE ≤ 32 ∧
    freeWalk (mm_malloc heap0 16 1 true).2.mem
      (mm_malloc heap0 16 1 true).2.freeroot 3 = [48] := by
  decide

/-- C10: reallocate(p, 0) never returns normally, for every state and every
    pointer: the internal allocate(0) call returns null (a no-op for
    allocate), and mm_realloc treats that null as a fatal allocation
    failure (printf + exit(1), modelled as the `none` outcome). -/
theorem C10_realloc_zero_is_fatal (s : St) (ptr fuel : Nat) (ok : Bool) :
    mm_realloc s ptr 0 fuel ok = none ∧ (mm_malloc s 0 fuel ok).1 = none := by
  constructor
  · unfold mm_realloc mm_malloc
    simp
  · unfold mm_malloc
    simp

/-- C5: when no free block fits the adjusted request and the growth
    primitive fails, mm_malloc returns null and the state — the memory
    (hence every block tag and sentinel) and the free list root — is
    exactly the state before the call: no partial mutation. -/
theorem C5_growth_failure_no_mutation (s : St) (size fuel : Nat)
    (hnofit : find_fit s.mem s.freeroot (adj_size size) fuel = none) :
    mm_malloc s size fuel false = (none, s) := by
  unfold mm_malloc
  by_cases h0 : size = 0
  · simp [h0]
  · simp only [h0, if_false, hnofit]
    unfold extend_heap
    simp

/-- Witness for C5: on the four-allocation heap, a request of 70000 bytes
    (adjusted size 70016) exceeds the free capacity 65392, and with the
    growth primitive failing mm_malloc returns null with the state
    untouched. -/
theorem C5_growth_failure_no_mutation_witness :
    find_fit heap4.mem heap4.freeroot (adj_size 70000) 100 = none ∧
    mm_malloc heap4 70000 100 false = (none, heap4) :=
  ⟨by decide, C5_growth_failure_no_mutation heap4 70000 100 (by decide)⟩

/-- C8 counterexample: the request 2^32 - 16 has a true adjusted size of
    2^32 (request plus 16 overhead, rounded to 8), far above the 31-bit
    capacity 2^31 - 1, yet mm_malloc does not reject it: the uint32_t
    assignment truncates the adjusted size to 0, the minimum-size floor
    raises it to 32, the allocation succeeds (payload 152 on heap4) and a
    header is encoded at 144 with the silently truncated size 32. -/
theorem C8_counterexample :
    2 ^ 31 - 1 < (2 ^ 32 - 16 + OVERHEAD + 7) / 8 * 8 ∧
    adj_size (2 ^ 32 - 16) = 32 ∧
    (mm_malloc heap4 (2 ^ 32 - 16) 100 true).1 = some 152 ∧
    getSize (mm_malloc heap4 (2 ^ 32 - 16) 100 true).2.mem 144 = 32 ∧
    getAlloc (mm_malloc heap4 (2 ^ 32 - 16) 100 true).2.mem 144 = true := by
  decide

/-- C8 amended: no size check exists; the adjusted size is silently
    truncated (mod 2^32 by the uint32_t assignment, then mod 2^31 when a
    header is encoded), and mm_malloc returns null only when the request is
    0 or when no fit is found and heap growth fails — never because the
    request exceeds the size-field capacity. -/
theorem C8_amended_never_rejected (s : St) (size fuel : Nat) (ok : Bool)
    (h : (mm_malloc s size fuel ok).1 = none) :
    size = 0 ∨
      (find_fit s.mem s.freeroot (adj_size size) fuel = none ∧
       extend_heap s
         ((if adj_size size > CHUNKSIZE then adj_size size else CHUNKSIZE) / 8) ok
         = none) := by
  by_cases h0 : size = 0
  · exact Or.inl h0
  · right
    unfold mm_malloc at h
    simp only [h0, if_false] at h
    cases hf : find_fit s.mem s.freeroot (adj_size size) fuel with
    | some b => rw [hf] at h; simp at h
    | none =>
      rw [hf] at h
      refine ⟨rfl, ?_⟩
      cases he : extend_heap s
          ((if adj_size size > CHUNKSIZE then adj_size size else CHUNKSIZE) / 8) ok with
      | some p => rw [he] at h; simp at h
      | none => rfl

/-- Witness for the amended C8: a concrete failing call (70000 bytes, no
    fit on heap4, growth refused) indeed lands in the growth-failure
    disjunct. -/
theorem C8_amended_never_rejected_witness :
    (mm_malloc heap4 70000 100 false).1 = none ∧
    (70000 = 0 ∨
      (find_fit heap4.mem heap4.freeroot (adj_size 70000) 100 = none ∧
       extend_heap heap4
         ((if adj_size 70000 > CHUNKSIZE then adj_size 70000 else CHUNKSIZE) / 8) false
         = none)) :=
  ⟨by decide, C8_amended_never_rejected heap4 70000 100 false (by decide)⟩

/-- C7 counterexample: on heap4, block 48 was allocated with request 16, so
    its payload capacity is 32 - 16 = 16 bytes; reallocating its payload 56
    to new_size 24 should, per the claim, copy min(16, 24) = 16 bytes, but
    the code copies realloc_copySize = min(new_size, old total block size)
    = min(24, 32) = 24 bytes: the new block's payload word at offset 16
    (address 168) receives the old block's footer word 65 (tag size 32,
    allocated), where it would have stayed 0 had only 16 bytes been
    copied. -/
theorem C7_counterexample :
    getSize heap4.mem 48 = 32 ∧
    realloc_copySize (mm_malloc heap4 24 100 true).2 56 24 = 24 ∧
    min (getSize heap4.mem 48 - OVERHEAD) 24 = 16 ∧
    (mm_realloc heap4 56 24 100 true).map (fun r => (r.1, r.2.mem (r.1 + 16)))
      = some (152, 65) ∧
    heap4.mem 168 = 0 ∧ heap4.mem 72 = 65 := by
  decide

/-- C7 amended: when the internal allocation succeeds, reallocate copies
    exactly min(new_size, old total block size) bytes — the block size read
    from the old header, which includes the 16 bytes of header+footer
    overhead, not the payload capacity — then frees the old block and
    returns the new payload pointer. -/
theorem C7_amended_realloc_copies_blocksize (s : St) (ptr size fuel : Nat) (ok : Bool)
    (newp : Nat) (s1 : St) (hm : mm_malloc s size fuel ok = (some newp, s1)) :
    realloc_copySize s1 ptr size = min size (getSize s1.mem (ptr - 8)) ∧
    mm_realloc s ptr size fuel ok =
      some (newp,
        mm_free { s1 with
          mem := memcpy s1.mem newp ptr (min size (getSize s1.mem (ptr - 8))) } ptr) := by
  have hcs : realloc_copySize s1 ptr size = min size (getSize s1.mem (ptr - 8)) := by
    unfold realloc_copySize
    exact ite_lt_eq_min _ _
  refine ⟨hcs, ?_⟩
  unfold mm_realloc
  rw [hm]
  dsimp only
  rw [hcs]

/-- Witness for the amended C7: the concrete reallocation of payload 56 to
    24 bytes on heap4 follows the malloc-copy-free pipeline with copy
    length min(24, 32) = 24. -/
theorem C7_amended_realloc_copies_blocksize_witness :
    mm_malloc heap4 24 100 true = (some 152, (mm_malloc heap4 24 100 true).2) ∧
    realloc_copySize (mm_malloc heap4 24 100 true).2 56 24 =
      min 24 (getSize (mm_malloc heap4 24 100 true).2.mem (56 - 8)) := by
  have h1 : (mm_malloc heap4 24 100 true).1 = some 152 := by decide
  have hm : mm_malloc heap4 24 100 true = (some 152, (mm_malloc heap4 24 100 true).2) := by
    rw [← h1]
  exact ⟨hm, (C7_amended_realloc_copies_blocksize heap4 56 24 100 true 152
    (mm_malloc heap4 24 100 true).2 hm).1⟩

/-- In-range characterisation of the adjusted size: request plus OVERHEAD,
    rounded up to a multiple of 8, floored at MIN_BLOCK_SIZE. -/
theorem adj_size_spec (size : Nat) (hrange : size + 23 < 2 ^ 32) :
    adj_size size = max MIN_BLOCK_SIZE ((size + OVERHEAD + 7) / 8 * 8) := by
  have h64 : (size + 16) % 2 ^ 64 = size + 16 :=
    Nat.mod_eq_of_lt (by omega)
  have hle : (size + 16 + 7) / 8 * 8 ≤ size + 23 := Nat.div_mul_le_self _ _
  have h32 : (size + 16 + 7) / 8 * 8 % 2 ^ 32 = (size + 16 + 7) / 8 * 8 :=
    Nat.mod_eq_of_lt (by omega)
  unfold adj_size OVERHEAD MIN_BLOCK_SIZE
  dsimp only
  rw [h64, h32]
  rcases Nat.lt_or_ge ((size + 16 + 7) / 8 * 8) 32 with h | h
  · rw [if_pos h, Nat.max_eq_left (Nat.le_of_lt h)]
  · rw [if_neg (Nat.not_lt.mpr h), Nat.max_eq_right h]

/-- The adjusted size is always a multiple of 8. -/
theorem adj_size_dvd (size : Nat) : 8 ∣ adj_size size := by
  unfold adj_size MIN_BLOCK_SIZE
  dsimp only
  split
  · omega
  · omega

/-- The adjusted size always fits in 32 bits. -/
theorem adj_size_lt (size : Nat) : adj_size size < 2 ^ 32 := by
  unfold adj_size MIN_BLOCK_SIZE
  dsimp only
  split
  · omega
  · omega

/-- extend_heap grows the break by exactly words * 8 (mod 2^32) and keeps
    the prologue. -/
theorem extend_heap_brk (s : St) (words : Nat) (ok : Bool) (s1 : St) (b : Nat)
    (h : extend_heap s words ok = some (s1, b)) :
    s1.brk = s.brk + words * 8 % 2 ^ 32 ∧ s1.prologue = s.prologue := by
  unfold extend_heap at h
  dsimp only at h
  split at h
  · exact absurd h (by simp)
  · rw [Option.some_inj] at h
    have h1 : s1 = (Prod.fst (α := St) (β := Nat) (s1, b)) := rfl
    rw [h1, ← h]
    split <;> exact ⟨rfl, rfl⟩

/-- C4: the allocation pipeline.  allocate(0) is a null-returning no-op;
    for a positive in-range request the adjusted size is the request plus
    overhead rounded up to a multiple of 8 and floored at the minimum block
    size 32; if find_fit finds a block, mm_malloc places the adjusted size
    there and returns its payload; otherwise it grows the heap by the
    larger of the adjusted size and CHUNKSIZE and places on the grown
    block, and if growth fails it returns null. -/
theorem C4_malloc_pipeline (s : St) (size fuel : Nat) (ok : Bool)
    (hpos : 0 < size) (hrange : size + 23 < 2 ^ 32) :
    adj_size size = max MIN_BLOCK_SIZE ((size + OVERHEAD + 7) / 8 * 8) ∧
    mm_malloc s 0 fuel ok = (none, s) ∧
    (∀ b, find_fit s.mem s.freeroot (adj_size size) fuel = some b →
       mm_malloc s size fuel ok = (some (b + 8), place s b (adj_size size))) ∧
    (find_fit s.mem s.freeroot (adj_size size) fuel = none →
       (∀ s1 b, extend_heap s (max (adj_size size) CHUNKSIZE / 8) ok = some (s1, b) →
          mm_malloc s size fuel ok = (some (b + 8), place s1 b (adj_size size)) ∧
          s1.brk = s.brk + max (adj_size size) CHUNKSIZE) ∧
       (extend_heap s (max (adj_size size) CHUNKSIZE / 8) ok = none →
          mm_malloc s size fuel ok = (none, s))) := by
  have hne : size ≠ 0 := Nat.pos_iff_ne_zero.mp hpos
  have hwords : (if adj_size size > CHUNKSIZE then adj_size size else CHUNKSIZE) / 8
      = max (adj_size size) CHUNKSIZE / 8 := by rw [ite_gt_eq_max]
  have hmax8 : 8 ∣ max (adj_size size) CHUNKSIZE := by
    rcases Nat.le_total (adj_size size) CHUNKSIZE with h | h
    · rw [Nat.max_eq_right h]; norm_num [CHUNKSIZE]
    · rw [Nat.max_eq_left h]; exact adj_size_dvd size
  refine ⟨adj_size_spec size hrange, by unfold mm_malloc; simp, ?_, ?_⟩
  · intro b hf
    unfold mm_malloc
    simp only [hne, if_false, hf]
  · intro hf
    constructor
    · intro s1 b he
      have hmm : mm_malloc s size fuel ok = (some (b + 8), place s1 b (adj_size size)) := by
        unfold mm_malloc
        simp only [hne, if_false, hf]
        rw [hwords, he]
      refine ⟨hmm, ?_⟩
      have hb := (extend_heap_brk s _ ok s1 b he).1
      have hlt : max (adj_size size) CHUNKSIZE < 2 ^ 32 := by
        rcases Nat.le_total (adj_size size) CHUNKSIZE with h | h
        · rw [Nat.max_eq_right h]; norm_num [CHUNKSIZE]
        · rw [Nat.max_eq_left h]; exact adj_size_lt size
      rw [hb, Nat.div_mul_cancel hmax8, Nat.mod_eq_of_lt hlt]
    · intro he
      unfold mm_malloc
      simp only [hne, if_false, hf]
      rw [hwords, he]

/-- Witness for C4: the in-range hypotheses hold for the fresh-heap request
    of 16 bytes, and the find-fit branch fires concretely. -/
theorem C4_malloc_pipeline_witness :
    0 < 16 ∧ 16 + 23 < 2 ^ 32 ∧
    adj_size 16 = max MIN_BLOCK_SIZE ((16 + OVERHEAD + 7) / 8 * 8) ∧
    find_fit heap0.mem heap0.freeroot (adj_size 16) 1 = some 16 ∧
    mm_malloc heap0 16 1 true = (some (16 + 8), place heap0 16 (adj_size 16)) := by
  have hc := C4_malloc_pipeline heap0 16 1 true (by decide) (by decide)
  have hf : find_fit heap0.mem heap0.freeroot (adj_size 16) 1 = some 16 := by decide
  exact ⟨by decide, by decide, hc.1, hf, hc.2.2.1 16 hf⟩


/-- All sizes of a well-formed layout are at least MIN_BLOCK_SIZE and
    multiples of 8. -/
theorem LayoutM_sizes (m : Mem) (pro brk : Nat) (bs : List (Nat × Bool))
    (h : LayoutM m pro brk bs) : ∀ q ∈ bs, MIN_BLOCK_SIZE ≤ q.1 ∧ q.1 % 8 = 0 :=
  layoutSeg_sizes m (pro + 8) bs h.2.2.2.1

/-- Tag facts for the distinguished block of a decomposed layout, plus the
    segments on each side. -/
theorem layout_decomp (m : Mem) (pro brk : Nat) (pre post : List (Nat × Bool))
    (bsz : Nat) (bal : Bool)
    (hlay : LayoutM m pro brk (pre ++ (bsz, bal) :: post)) :
    getSize m (pro + 8 + sumSizes pre) = bsz ∧
    getAlloc m (pro + 8 + sumSizes pre) = bal ∧
    getSize m (pro + 8 + sumSizes pre + bsz - 8) = bsz ∧
    getAlloc m (pro + 8 + sumSizes pre + bsz - 8) = bal ∧
    MIN_BLOCK_SIZE ≤ bsz ∧ bsz % 8 = 0 ∧
    layoutSeg m (pro + 8) pre ∧
    layoutSeg m (pro + 8 + sumSizes pre + bsz) post := by
  have hseg := hlay.2.2.2.1
  obtain ⟨h1, h2⟩ := (layoutSeg_append m (pro + 8) pre ((bsz, bal) :: post)).mp hseg
  obtain ⟨ha, hb, hc, hd, he, hf, hg⟩ := h2
  exact ⟨ha, hb, hc, hd, he, hf, h1, hg⟩

/-- Merging two adjacent free blocks: writing the summed size into the
    first block's header and into the second block's old footer produces
    the layout in which the two entries are replaced by one, provided the
    other memory changes (pointer-field writes) touch neither the prologue
    nor any tag address. -/
theorem merged_layout2 (m mP : Mem) (pro brk : Nat) (pre post' : List (Nat × Bool))
    (s1 s2 : Nat)
    (hlay : LayoutM m pro brk (pre ++ (s1, false) :: (s2, false) :: post'))
    (hagree : ∀ t, t = pro ∨ t ∈ tagAddrs (pro + 8) (pre ++ (s1, false) :: (s2, false) :: post') →
        mP t = m t) :
    getSize mP (pro + 8 + sumSizes pre) = s1 ∧
    getSize mP (pro + 8 + sumSizes pre + s1) = s2 ∧
    LayoutM
      (setSize (setSize mP (pro + 8 + sumSizes pre) (s1 + s2))
        (pro + 8 + sumSizes pre + getSize (setSize mP (pro + 8 + sumSizes pre) (s1 + s2))
          (pro + 8 + sumSizes pre) - 8)
        (getSize (setSize mP (pro + 8 + sumSizes pre) (s1 + s2)) (pro + 8 + sumSizes pre)))
      pro brk (pre ++ (s1 + s2, false) :: post') := by
  obtain ⟨hpro8, hproal, hprosz, hseg, hepsz, hepal, hbrk, hbound⟩ := hlay
  set b := pro + 8 + sumSizes pre with hbdef
  -- sizes and bounds
  have hsz := layoutSeg_sizes m (pro + 8) _ hseg
  have hs1 : MIN_BLOCK_SIZE ≤ s1 ∧ s1 % 8 = 0 := hsz (s1, false) (by simp)
  have hs2 : MIN_BLOCK_SIZE ≤ s2 ∧ s2 % 8 = 0 := hsz (s2, false) (by simp)
  have h32s1 : 32 ≤ s1 := hs1.1
  have h32s2 : 32 ≤ s2 := hs2.1
  have hMIN : MIN_BLOCK_SIZE = 32 := rfl
  have hsum1 : sumSizes (pre ++ (s1, false) :: (s2, false) :: post') =
      sumSizes pre + s1 + s2 + sumSizes post' := by
    rw [sumSizes_append, sumSizes_cons, sumSizes_cons]
    omega
  have hsum2 : sumSizes (pre ++ (s1 + s2, false) :: post') =
      sumSizes pre + s1 + s2 + sumSizes post' := by
    rw [sumSizes_append, sumSizes_cons]
    omega
  have hS31 : s1 + s2 < 2 ^ 31 := by
    rw [hsum1] at hbrk
    omega
  -- original tag facts
  obtain ⟨hpre1, hmid⟩ :=
    (layoutSeg_append m (pro + 8) pre ((s1, false) :: (s2, false) :: post')).mp hseg
  obtain ⟨h1a, h1b, h1c, h1d, _, _, hmid2⟩ := hmid
  obtain ⟨h2a, h2b, h2c, h2d, _, _, hpost⟩ := hmid2
  -- reads on mP at the two headers and the second footer
  have hb_mem := start_mem_tagAddrs (pro + 8) pre ((s2, false) :: post') s1 false
  have hmPb : mP b = m b := hagree b (Or.inr hb_mem.1)
  have hnb_mem := start_mem_tagAddrs (pro + 8) (pre ++ [(s1, false)]) post' s2 false
  have hsumpre1 : sumSizes (pre ++ [(s1, false)]) = sumSizes pre + s1 := by
    rw [sumSizes_append, sumSizes_cons]
    rfl
  have hlist1 : (pre ++ [(s1, false)]) ++ (s2, false) :: post' =
      pre ++ (s1, false) :: (s2, false) :: post' := by
    simp
  have hmPnb : mP (b + s1) = m (b + s1) := by
    have := hnb_mem.1
    rw [hsumpre1, hlist1] at this
    refine hagree (b + s1) (Or.inr ?_)
    rw [show b + s1 = pro + 8 + (sumSizes pre + s1) by omega]
    exact this
  have hmPf2 : mP (b + s1 + s2 - 8) = m (b + s1 + s2 - 8) := by
    have := hnb_mem.2
    rw [hsumpre1, hlist1] at this
    exact hagree (b + s1 + s2 - 8) (Or.inr (by
      rw [show pro + 8 + (sumSizes pre + s1) + s2 - 8 = b + s1 + s2 - 8 by omega] at this
      exact this))
  have hrdb : getSize mP b = s1 := by rw [getSize_congr hmPb]; exact h1a
  have hrdnb : getSize mP (b + s1) = s2 := by rw [getSize_congr hmPnb]; exact h2a
  refine ⟨hrdb, hrdnb, ?_⟩
  -- the size written reads back exactly
  have hSread : getSize (setSize mP b (s1 + s2)) b = s1 + s2 :=
    getSize_setSize_self mP b (s1 + s2) hS31
  rw [hSread]
  set F := b + (s1 + s2) - 8 with hFdef
  set mF := setSize (setSize mP b (s1 + s2)) F (s1 + s2) with hmFdef
  have hbne : F ≠ b := by omega
  -- helper: mF agrees with mP away from b and F
  have hmF_other : ∀ t, t ≠ b → t ≠ F → mF t = mP t := by
    intro t ht1 ht2
    rw [hmFdef, setSize_other _ _ _ _ ht2, setSize_other _ _ _ _ ht1]
  -- prologue and pre-part tags are strictly below b
  have hszall : ∀ q ∈ pre ++ (s1, false) :: (s2, false) :: post', 8 ≤ q.1 := by
    intro q hq
    have := layoutSeg_sizes m (pro + 8) _ hseg q hq
    omega
  have hszpre : ∀ q ∈ pre, 8 ≤ q.1 := by
    intro q hq
    exact hszall q (List.mem_append_left _ hq)
  have hszpost : ∀ q ∈ post', 8 ≤ q.1 := by
    intro q hq
    exact hszall q (by simp [hq])
  refine ⟨hpro8, ?_, ?_, ?_, ?_, ?_, ?_, ?_⟩
  · rw [getAlloc_congr (hmF_other pro (by omega) (by omega)), getAlloc_congr
      (hagree pro (Or.inl rfl))]
    exact hproal
  · rw [getSize_congr (hmF_other pro (by omega) (by omega)), getSize_congr
      (hagree pro (Or.inl rfl))]
    exact hprosz
  · -- segment: pre ++ merged :: post'
    rw [layoutSeg_append]
    constructor
    · -- pre part unchanged
      refine layoutSeg_congr (pro + 8) pre ?_ hpre1
      intro t ht
      have hb1 := blockTags_bounds (pro + 8) pre hszpre t ht
      have ht' : mP t = m t := hagree t (Or.inr (blockTags_subset_tagAddrs _ _ t
        (blockTags_append_left _ _ _ t ht)))
      rw [hmF_other t (by omega) (by omega), ht']
    · -- merged block and post'
      have hgb : getSize mF b = s1 + s2 := by
        rw [hmFdef, getSize_setSize_other _ _ _ _ hbne.symm]
        exact hSread
      have hab : getAlloc mF b = false := by
        rw [hmFdef, getAlloc_setSize_other _ _ _ _ hbne.symm, getAlloc_setSize_self,
          getAlloc_congr hmPb]
        exact h1b
      have hgF : getSize mF F = s1 + s2 := by
        rw [hmFdef]
        exact getSize_setSize_self _ _ _ hS31
      have haF : getAlloc mF F = false := by
        rw [hmFdef, getAlloc_setSize_self, getAlloc_setSize_other _ _ _ _ hbne,
          show F = b + s1 + s2 - 8 by omega, getAlloc_congr hmPf2]
        exact h2d
      refine ⟨hgb, hab, ?_, ?_, by omega, by omega, ?_⟩
      · rw [show b + (s1 + s2) - 8 = F by omega]
        exact hgF
      · rw [show b + (s1 + s2) - 8 = F by omega]
        exact haF
      · -- post' tags unchanged
        have hpost' : layoutSeg m (b + (s1 + s2)) post' := by
          rw [show b + (s1 + s2) = b + s1 + s2 by omega]
          exact hpost
        refine layoutSeg_congr _ post' ?_ hpost'
        intro t ht
        have hbnd := blockTags_bounds (b + (s1 + s2)) post' hszpost t ht
        have htag : t ∈ tagAddrs (pro + 8) (pre ++ (s1, false) :: (s2, false) :: post') := by
          apply blockTags_subset_tagAddrs
          have := blockTags_append_right (pro + 8) (pre ++ [(s1, false), (s2, false)]) post' t
          rw [show pro + 8 + sumSizes (pre ++ [(s1, false), (s2, false)]) = b + (s1 + s2) by
            rw [sumSizes_append, sumSizes_cons, sumSizes_cons, sumSizes_nil]; omega] at this
          rw [show (pre ++ [(s1, false), (s2, false)]) ++ post' =
            pre ++ (s1, false) :: (s2, false) :: post' by simp] at this
          exact this ht
        rw [hmF_other t (by omega) (by omega)]
        exact hagree t (Or.inr htag)
  · -- epilogue size
    have hEeq : pro + 8 + sumSizes (pre ++ (s1 + s2, false) :: post') =
        pro + 8 + sumSizes (pre ++ (s1, false) :: (s2, false) :: post') := by
      rw [hsum1, hsum2]
    rw [hEeq]
    have hE0 : pro + 8 + sumSizes (pre ++ (s1, false) :: (s2, false) :: post') =
        b + s1 + s2 + sumSizes post' := by
      rw [hsum1]; omega
    rw [getSize_congr (hmF_other _ (by omega) (by omega)),
      getSize_congr (hagree _ (Or.inr (tagAddrs_end_mem _ _)))]
    exact hepsz
  · -- epilogue alloc
    have hEeq : pro + 8 + sumSizes (pre ++ (s1 + s2, false) :: post') =
        pro + 8 + sumSizes (pre ++ (s1, false) :: (s2, false) :: post') := by
      rw [hsum1, hsum2]
    rw [hEeq]
    have hE0 : pro + 8 + sumSizes (pre ++ (s1, false) :: (s2, false) :: post') =
        b + s1 + s2 + sumSizes post' := by
      rw [hsum1]; omega
    rw [getAlloc_congr (hmF_other _ (by omega) (by omega)),
      getAlloc_congr (hagree _ (Or.inr (tagAddrs_end_mem _ _)))]
    exact hepal
  · omega
  · omega

set_option maxHeartbeats 1600000 in
/-- Case-2 path of coalesce (next neighbour free and at the list root with
    a successor, previous allocated). -/
theorem coalesce_aux_case2_root_cons (m : Mem) (root b bsz nn : Nat)
    (hbsz : getSize m b = bsz)
    (hpa : getAlloc m (b - 8) = true)
    (hnal : getAlloc m (b + bsz) = false)
    (hnp : getPtr m (b + bsz + 16) = 0)
    (hnn : getPtr m (b + bsz + 8) = nn)
    (hnn0 : nn ≠ 0)
    (hrooteq : b + bsz = root)
    (hb32 : 32 ≤ bsz)
    (hsep : nn + 16 ≠ b + bsz + 8) :
    coalesce_aux m root b =
      (let m2 := setPtr m (nn + 16) 0
       let m3 := setPtr m2 (b + 8) nn
       let m4 := setPtr m3 (nn + 16) b
       let m5 := setPtr m4 (b + 16) 0
       let m6 := setPtr m5 (b + bsz + 8) 0
       let m7 := setPtr m6 (b + bsz + 8) 0
       let m8 := setPtr m7 (b + bsz + 16) 0
       let m9 := setSize m8 b (getSize m8 b + getSize m8 (b + bsz))
       let m10 := setSize m9 (b + getSize m9 b - 8) (getSize m9 b)
       (m10, b, b)) := by
  unfold coalesce_aux
  dsimp only
  rw [hbsz, hpa, hnal]
  simp only [Bool.and_false, Bool.not_false, Bool.and_true, Bool.false_eq_true, if_false,
    if_true]
  rw [hnp]
  rw [if_neg (show ¬((0:Nat) ≠ 0) from fun h => h rfl)]
  rw [hnp, hnn]
  rw [if_pos hnn0]
  have hrd1 : getPtr (setPtr m (nn + 16) 0) (b + bsz + 8) = nn := by
    rw [getPtr_setPtr_other _ _ _ _ (Ne.symm hsep)]
    exact hnn
  rw [hrd1]
  rw [if_pos (And.intro hnn0 hrooteq)]
  have hrd2 : getPtr (setPtr (setPtr m (nn + 16) 0) (b + 8) nn) (b + bsz + 8) = nn := by
    rw [getPtr_setPtr_other _ _ _ _ (by omega), getPtr_setPtr_other _ _ _ _ (Ne.symm hsep)]
    exact hnn
  rw [hrd2]

set_option maxHeartbeats 1600000 in
/-- Case-2 path of coalesce (next neighbour free, alone at the list root,
    previous allocated). -/
theorem coalesce_aux_case2_root_nil (m : Mem) (root b bsz : Nat)
    (hbsz : getSize m b = bsz)
    (hpa : getAlloc m (b - 8) = true)
    (hnal : getAlloc m (b + bsz) = false)
    (hnp : getPtr m (b + bsz + 16) = 0)
    (hnn : getPtr m (b + bsz + 8) = 0)
    (hrooteq : b + bsz = root) :
    coalesce_aux m root b =
      (let m3 := setPtr m (b + 16) 0
       let m4 := setPtr m3 (b + 8) 0
       let m6 := setPtr m4 (b + bsz + 8) 0
       let m8 := setPtr m6 (b + bsz + 16) 0
       let m9 := setSize m8 b (getSize m8 b + getSize m8 (b + bsz))
       let m10 := setSize m9 (b + getSize m9 b - 8) (getSize m9 b)
       (m10, b, b)) := by
  unfold coalesce_aux
  dsimp only
  rw [hbsz, hpa, hnal]
  simp only [Bool.and_false, Bool.not_false, Bool.and_true, Bool.false_eq_true, if_false,
    if_true]
  rw [hnp]
  rw [if_neg (show ¬((0:Nat) ≠ 0) from fun h => h rfl)]
  rw [hnp, hnn]
  rw [if_neg (show ¬((0:Nat) ≠ 0) from fun h => h rfl)]
  rw [hnn]
  rw [if_neg (fun h : (0:Nat) ≠ 0 ∧ b + bsz = root => h.1 rfl)]
  rw [if_pos (And.intro rfl hrooteq)]

set_option maxHeartbeats 1600000 in
/-- Case-2 path of coalesce (next neighbour free, not the list root,
    previous allocated). -/
theorem coalesce_aux_case2_mid (m : Mem) (root b bsz np nn : Nat)
    (hbsz : getSize m b = bsz)
    (hpa : getAlloc m (b - 8) = true)
    (hnal : getAlloc m (b + bsz) = false)
    (hnp : getPtr m (b + bsz + 16) = np)
    (hnn : getPtr m (b + bsz + 8) = nn)
    (hnp0 : np ≠ 0)
    (hrootne : b + bsz ≠ root)
    (hsep1 : np + 8 ≠ b + bsz + 8)
    (hsep2 : np + 8 ≠ b + bsz + 16) :
    coalesce_aux m root b =
      (let m1 := setPtr m (np + 8) nn
       let m2 := if nn ≠ 0 then setPtr m1 (nn + 16) np else m1
       let m3 := setPtr m2 (b + 8) root
       let m4 := setPtr m3 (root + 16) b
       let m5 := setPtr m4 (b + 16) 0
       let m6 := setPtr m5 (b + bsz + 8) 0
       let m7 := setPtr m6 (b + bsz + 16) 0
       let m9 := setSize m7 b (getSize m7 b + getSize m7 (b + bsz))
       let m10 := setSize m9 (b + getSize m9 b - 8) (getSize m9 b)
       (m10, b, b)) := by
  unfold coalesce_aux
  dsimp only
  rw [hbsz, hpa, hnal]
  simp only [Bool.and_false, Bool.not_false, Bool.and_true, Bool.false_eq_true, if_false,
    if_true]
  rw [hnp]
  rw [if_pos hnp0]
  rw [hnn]
  have hrd1 : getPtr (setPtr m (np + 8) nn) (b + bsz + 8) = nn := by
    rw [getPtr_setPtr_other _ _ _ _ (Ne.symm hsep1)]
    exact hnn
  have hrd2 : getPtr (setPtr m (np + 8) nn) (b + bsz + 16) = np := by
    rw [getPtr_setPtr_other _ _ _ _ (Ne.symm hsep2)]
    exact hnp
  rw [hrd1, hrd2]
  generalize (if nn ≠ 0 then setPtr (setPtr m (np + 8) nn) (nn + 16) np
      else setPtr m (np + 8) nn) = M2
  rw [if_neg (fun h : getPtr M2 (b + bsz + 8) ≠ 0 ∧ b + bsz = root => hrootne h.2)]
  rw [if_neg (fun h : getPtr M2 (b + bsz + 8) = 0 ∧ b + bsz = root => hrootne h.2)]

/-- Case 1 of coalesce (both physical neighbours allocated) re-establishes
    well-formedness: the freed block becomes the new free-list head, the
    heap block structure is unchanged, and the returned block is the freed
    block itself. -/
theorem coalesce_case1_WF (m : Mem) (root pro brk : Nat)
    (pre post : List (Nat × Bool)) (bsz : Nat) (fs : List Nat)
    (hlay : LayoutM m pro brk (pre ++ (bsz, false) :: post))
    (hchain : chainAt m 0 root fs)
    (hiff : ∀ p ∈ blocksFrom (pro + 8) (pre ++ (bsz, false) :: post),
        p.1 ≠ pro + 8 + sumSizes pre → (p.2.2 = false ↔ p.1 ∈ fs))
    (hsub : ∀ u ∈ fs, ∃ p ∈ blocksFrom (pro + 8) (pre ++ (bsz, false) :: post),
        p.1 = u ∧ p.2.2 = false ∧ u ≠ pro + 8 + sumSizes pre)
    (hnodup : fs.Nodup)
    (hnoadjpre : noAdjacentFree pre) (hnoadjpost : noAdjacentFree post)
    (hpreA : ∀ p, pre.getLast? = some p → p.2 = true)
    (hpostA : ∀ q, post.head? = some q → q.2 = true) :
    (coalesce_aux m root (pro + 8 + sumSizes pre)).2.1 = pro + 8 + sumSizes pre ∧
    (coalesce_aux m root (pro + 8 + sumSizes pre)).2.2 = pro + 8 + sumSizes pre ∧
    WFM (coalesce_aux m root (pro + 8 + sumSizes pre)).1 (pro + 8 + sumSizes pre)
      pro brk (pre ++ (bsz, false) :: post) ((pro + 8 + sumSizes pre) :: fs) := by
  have hpro8 : 8 ≤ pro := hlay.1
  obtain ⟨hbsz, hbal, hbfsz, hbfal, hbmin, hb8, hsegpre, hsegpost⟩ :=
    layout_decomp m pro brk pre post bsz false hlay
  have hmin32 : MIN_BLOCK_SIZE = 32 := rfl
  set b := pro + 8 + sumSizes pre with hbdef
  have hsz8 : ∀ q ∈ pre ++ (bsz, false) :: post, 8 ≤ q.1 := by
    intro q hq
    have := (LayoutM_sizes m pro brk _ hlay q hq).1
    omega
  have hsz32 : ∀ q ∈ pre ++ (bsz, false) :: post, 32 ≤ q.1 := by
    intro q hq
    have := (LayoutM_sizes m pro brk _ hlay q hq).1
    omega
  have hbmem : (b, bsz, false) ∈ blocksFrom (pro + 8) (pre ++ (bsz, false) :: post) := by
    rw [hbdef]
    exact decomp_mem_blocksFrom (pro + 8) pre post bsz false
  -- the previous physical tag is allocated (pre's last footer or prologue)
  have hpa : getAlloc m (b - 8) = true := by
    rcases List.eq_nil_or_concat pre with rfl | ⟨pre', ⟨psz, pal⟩, rfl⟩
    · have hb0 : b = pro + 8 := by rw [hbdef]; simp [sumSizes]
      have : b - 8 = pro := by omega
      rw [this]
      exact hlay.2.1
    · simp only [List.concat_eq_append] at hsegpre hbdef hpreA
      have hpal : pal = true := hpreA (psz, pal) (by simp)
      have hsum : sumSizes (pre' ++ [(psz, pal)]) = sumSizes pre' + psz := by
        simp [sumSizes_append, sumSizes_cons, sumSizes_nil]
      obtain ⟨h1, h2⟩ := (layoutSeg_append m (pro + 8) pre' [(psz, pal)]).mp hsegpre
      obtain ⟨_, _, hfsz, hfal, hp32, _, _⟩ := h2
      have haddr : pro + 8 + sumSizes pre' + psz - 8 = b - 8 := by
        rw [hbdef, hsum]
        omega
      rw [haddr] at hfal
      rw [hfal, hpal]
  -- the next physical tag is allocated (post's head or the epilogue)
  have hna : getAlloc m (b + getSize m b) = true := by
    rw [hbsz]
    cases post with
    | nil =>
      have haddr : b + bsz = pro + 8 + sumSizes (pre ++ [(bsz, false)]) := by
        rw [hbdef, sumSizes_append, sumSizes_cons, sumSizes_nil]
        omega
      rw [haddr]
      exact hlay.2.2.2.2.2.1
    | cons q post' =>
      obtain ⟨nsz, nal⟩ := q
      have hnal : nal = true := hpostA (nsz, nal) rfl
      obtain ⟨ha, hb2, _⟩ := hsegpost
      rw [hb2, hnal]
  -- shared conclusions about the new description
  have hbnotin : b ∉ fs := by
    intro hmem
    obtain ⟨p, hp, hp1, hpf, hpb⟩ := hsub b hmem
    exact hpb rfl
  have hnodup' : (b :: fs).Nodup := List.nodup_cons.mpr ⟨hbnotin, hnodup⟩
  have hiff' : ∀ p ∈ blocksFrom (pro + 8) (pre ++ (bsz, false) :: post),
      (p.2.2 = false ↔ p.1 ∈ b :: fs) := by
    intro p hp
    by_cases hpb : p.1 = b
    · have hpe : p = (b, bsz, false) :=
        blocksFrom_addr_inj (pro + 8) _ hsz32 p hp _ hbmem hpb
      rw [hpe]
      simp
    · rw [List.mem_cons]
      constructor
      · intro hfree
        exact Or.inr ((hiff p hp hpb).mp hfree)
      · rintro (hEq | hmem)
        · exact absurd hEq hpb
        · exact (hiff p hp hpb).mpr hmem
  have hsub' : ∀ u ∈ b :: fs, ∃ p ∈ blocksFrom (pro + 8) (pre ++ (bsz, false) :: post),
      p.1 = u ∧ p.2.2 = false := by
    intro u hu
    rcases List.mem_cons.mp hu with rfl | hu
    · exact ⟨(b, bsz, false), hbmem, rfl, rfl⟩
    · obtain ⟨p, hp, hp1, hpf, _⟩ := hsub u hu
      exact ⟨p, hp, hp1, hpf⟩
  have hnoadj' : noAdjacentFree (pre ++ (bsz, false) :: post) := by
    refine noAdjacentFree_append pre post bsz false hnoadjpre hnoadjpost ?_ ?_
    · intro p hp
      rw [hpreA p hp]
      simp
    · intro q hq
      rw [hpostA q hq]
      simp
  -- case split on the list shape
  rcases chainAt_root m fs 0 root hchain with ⟨rfl, rfl⟩ | ⟨rest, rfl⟩
  · -- empty free list
    have hspec := coalesce_aux_case1_nil m 0 b hpa hna (Or.inl rfl)
    rw [hspec]
    have hagree : ∀ t, t = pro ∨ t ∈ tagAddrs (pro + 8) (pre ++ (bsz, false) :: post) →
        setPtr (setPtr m (b + 8) 0) (b + 16) 0 t = m t := by
      intro t ht
      have h1 : t ≠ b + 8 :=
        tag_ne_inside pro _ pre post bsz false rfl hsz8 t (b + 8) ht (by omega) (by omega)
      have h2 : t ≠ b + 16 :=
        tag_ne_inside pro _ pre post bsz false rfl hsz8 t (b + 16) ht (by omega) (by omega)
      rw [setPtr_other _ _ _ _ h2, setPtr_other _ _ _ _ h1]
    refine ⟨rfl, rfl, LayoutM_congr pro brk _ hlay hagree, ?_, hiff', hsub', hnodup', hnoadj'⟩
    refine ⟨rfl, by omega, ?_, ?_⟩
    · show getPtr (setPtr (setPtr m (b + 8) 0) (b + 16) 0) (b + 16) = 0
      exact getPtr_setPtr_self _ _ _
    · show chainAt _ b (getPtr (setPtr (setPtr m (b + 8) 0) (b + 16) 0) (b + 8)) []
      show getPtr (setPtr (setPtr m (b + 8) 0) (b + 16) 0) (b + 8) = 0
      rw [getPtr_setPtr_other _ _ _ _ (by omega), getPtr_setPtr_self]
  · -- nonempty free list rooted at root
    have hr0 : root ≠ 0 := hchain.2.1
    have hrb : root ≠ b := by
      obtain ⟨p, hp, hp1, hpf, hpb⟩ := hsub root (List.mem_cons_self _ _)
      exact hpb
    have hspec := coalesce_aux_case1_cons m root b hpa hna (by
      rintro (h | h)
      · exact hr0 h
      · exact hrb h)
    rw [hspec]
    -- the root's block entry and separation facts
    obtain ⟨p, hp, hp1, hpf, _⟩ := hsub root (List.mem_cons_self _ _)
    have hrmem : (root, p.2.1, false) ∈ blocksFrom (pro + 8) (pre ++ (bsz, false) :: post) := by
      have hpe : p = (root, p.2.1, false) :=
        Prod.ext hp1 (Prod.ext rfl hpf)
      exact hpe ▸ hp
    obtain ⟨pre_r, post_r, hsplit_r, haddr_r⟩ :=
      mem_blocksFrom_decomp (pro + 8) _ (root, p.2.1, false) hrmem
    have hr32 : 32 ≤ p.2.1 := hsz32 (p.2.1, false) (by rw [hsplit_r]; simp)
    have hdisj := blocksFrom_disjoint (pro + 8) _ (b, bsz, false) hbmem (root, p.2.1, false) hrmem
    have hdisj2 : b + bsz ≤ root ∨ root + p.2.1 ≤ b := by
      rcases hdisj with h | h | h
      · exact absurd h.symm hrb
      · exact Or.inl h
      · exact Or.inr h
    have hagree : ∀ t, t = pro ∨ t ∈ tagAddrs (pro + 8) (pre ++ (bsz, false) :: post) →
        setPtr (setPtr (setPtr m (b + 8) root) (root + 16) b) (b + 16) 0 t = m t := by
      intro t ht
      have h1 : t ≠ b + 8 :=
        tag_ne_inside pro _ pre post bsz false rfl hsz8 t (b + 8) ht (by omega) (by omega)
      have h2 : t ≠ b + 16 :=
        tag_ne_inside pro _ pre post bsz false rfl hsz8 t (b + 16) ht (by omega) (by omega)
      have h3 : t ≠ root + 16 :=
        tag_ne_inside pro _ pre_r post_r p.2.1 false hsplit_r hsz8 t (root + 16) ht
          (by omega) (by omega)
      rw [setPtr_other _ _ _ _ h2, setPtr_other _ _ _ _ h3, setPtr_other _ _ _ _ h1]
    refine ⟨rfl, rfl, LayoutM_congr pro brk _ hlay hagree, ?_, hiff', hsub', hnodup', hnoadj'⟩
    -- the new chain b :: root :: rest
    refine ⟨rfl, by omega, ?_, ?_⟩
    · show getPtr (setPtr (setPtr (setPtr m (b + 8) root) (root + 16) b) (b + 16) 0) (b + 16) = 0
      exact getPtr_setPtr_self _ _ _
    · have hb8v : getPtr (setPtr (setPtr (setPtr m (b + 8) root) (root + 16) b) (b + 16) 0)
          (b + 8) = root := by
        rw [getPtr_setPtr_other _ _ _ _ (by omega),
            getPtr_setPtr_other _ _ _ _ (by omega),
            getPtr_setPtr_self]
      rw [hb8v]
      refine ⟨rfl, hr0, ?_, ?_⟩
      · show getPtr (setPtr (setPtr (setPtr m (b + 8) root) (root + 16) b) (b + 16) 0)
            (root + 16) = b
        rw [getPtr_setPtr_other _ _ _ _ (by omega), getPtr_setPtr_self]
      · have hnextv : getPtr (setPtr (setPtr (setPtr m (b + 8) root) (root + 16) b) (b + 16) 0)
            (root + 8) = getPtr m (root + 8) := by
          rw [getPtr_setPtr_other _ _ _ _ (by omega),
              getPtr_setPtr_other _ _ _ _ (by omega),
              getPtr_setPtr_other _ _ _ _ (by omega)]
        rw [hnextv]
        refine chainAt_congr rest root (getPtr m (root + 8)) ?_ hchain.2.2.2
        intro x hx
        obtain ⟨px, hpxmem, hpx1, hpxf, hpxb⟩ := hsub x (List.mem_cons_of_mem _ hx)
        have hxroot : x ≠ root := by
          intro hEq
          exact (List.nodup_cons.mp hnodup).1 (hEq ▸ hx)
        have hxmem : (x, px.2.1, false) ∈ blocksFrom (pro + 8) (pre ++ (bsz, false) :: post) := by
          have hpe : px = (x, px.2.1, false) :=
            Prod.ext hpx1 (Prod.ext rfl hpxf)
          exact hpe ▸ hpxmem
        have hx32 : 32 ≤ px.2.1 := hsz32 (px.2.1, false) (by
          obtain ⟨prex, postx, hsx, _⟩ := mem_blocksFrom_decomp (pro + 8) _ _ hxmem
          rw [hsx]
          simp)
        have hdx1 := blocksFrom_disjoint (pro + 8) _ (x, px.2.1, false) hxmem (b, bsz, false) hbmem
        have hdx2 := blocksFrom_disjoint (pro + 8) _ (x, px.2.1, false) hxmem
          (root, p.2.1, false) hrmem
        have hdxb : x + px.2.1 ≤ b ∨ b + bsz ≤ x := by
          rcases hdx1 with h | h | h
          · exact absurd h hpxb
          · exact Or.inl h
          · exact Or.inr h
        have hdxr : x + px.2.1 ≤ root ∨ root + p.2.1 ≤ x := by
          rcases hdx2 with h | h | h
          · exact absurd h hxroot
          · exact Or.inl h
          · exact Or.inr h
        constructor
        · dsimp only
          rw [setPtr_other _ _ _ _ (by omega), setPtr_other _ _ _ _ (by omega),
              setPtr_other _ _ _ _ (by omega)]
        · dsimp only
          rw [setPtr_other _ _ _ _ (by omega), setPtr_other _ _ _ _ (by omega),
              setPtr_other _ _ _ _ (by omega)]


/-- The (size, flag) pair of every listed block is an entry of the
    description list. -/
theorem blocksFrom_mem_pair (a : Nat) (bs : List (Nat × Bool)) (p : Nat × Nat × Bool)
    (h : p ∈ blocksFrom a bs) : (p.2.1, p.2.2) ∈ bs := by
  induction bs generalizing a with
  | nil => cases h
  | cons q rest ih =>
    obtain ⟨sz, al⟩ := q
    rcases List.mem_cons.mp h with rfl | h
    · exact List.mem_cons_self _ _
    · exact List.mem_cons_of_mem _ (ih (a + sz) h)

/-- In a decomposed layout whose `pre` part ends in an allocated entry (or
    is empty, in which case the word is the prologue), the footer word just
    before the distinguished block reads allocated. -/
theorem prev_tag_alloc (m : Mem) (pro brk : Nat) (pre rest : List (Nat × Bool))
    (b0 : Nat × Bool)
    (hlay : LayoutM m pro brk (pre ++ b0 :: rest))
    (hpreA : ∀ p, pre.getLast? = some p → p.2 = true) :
    getAlloc m (pro + 8 + sumSizes pre - 8) = true := by
  rcases List.eq_nil_or_concat pre with rfl | ⟨pre', ⟨psz, pal⟩, rfl⟩
  · rw [sumSizes_nil, show pro + 8 + 0 - 8 = pro by omega]
    exact hlay.2.1
  · simp only [List.concat_eq_append] at hpreA hlay ⊢
    have hpal : pal = true := hpreA (psz, pal) (by simp)
    have hseg := hlay.2.2.2.1
    rw [List.append_assoc] at hseg
    obtain ⟨_, h2⟩ := (layoutSeg_append m (pro + 8) pre' ([(psz, pal)] ++ b0 :: rest)).mp hseg
    obtain ⟨_, _, hfsz, hfal, _, _, _⟩ := h2
    rw [sumSizes_append, sumSizes_cons, sumSizes_nil,
      show pro + 8 + (sumSizes pre' + (psz + 0)) - 8 = pro + 8 + sumSizes pre' + psz - 8
        by omega]
    rw [hfal, hpal]

/-- Rewriting the stored prev pointer of a nonempty segment's head moves
    the expected back pointer, provided the write does not alias any other
    pointer field of the segment. -/
theorem chainSeg_set_head_prev (m : Mem) (xs : List Nat) (prev r lv nr w : Nat)
    (h : chainSeg m prev r xs lv nr) (hne : xs ≠ []) (hnodup : xs.Nodup)
    (hsep : ∀ x ∈ xs, x ≠ r → x + 8 ≠ r + 16 ∧ x + 16 ≠ r + 16) :
    chainSeg (setPtr m (r + 16) w) w r xs lv nr := by
  cases xs with
  | nil => exact absurd rfl hne
  | cons x0 rest =>
    obtain ⟨hr, h0, hprev, hseg⟩ := h
    subst hr
    refine ⟨rfl, h0, getPtr_setPtr_self _ _ _, ?_⟩
    have h8 : getPtr (setPtr m (r + 16) w) (r + 8) = getPtr m (r + 8) :=
      getPtr_setPtr_other _ _ _ _ (by omega)
    rw [h8]
    refine chainSeg_congr rest r (getPtr m (r + 8)) lv nr ?_ hseg
    intro x hx
    have hxne : x ≠ r := fun hEq => (List.nodup_cons.mp hnodup).1 (hEq ▸ hx)
    obtain ⟨hs1, hs2⟩ := hsep x (List.mem_cons_of_mem _ hx) hxne
    exact ⟨setPtr_other _ _ _ _ hs1, setPtr_other _ _ _ _ hs2⟩

/-- List-level bookkeeping for absorbing a block's free successor: with
    the two adjacent free entries replaced by their sum and the absorbed
    node removed from the free list while the merged block moves to the
    head, the membership, uniqueness and adjacency clauses of
    well-formedness hold. -/
theorem merge2_listfacts (pro : Nat) (pre post' : List (Nat × Bool))
    (bsz nsz : Nat) (xs ys : List Nat)
    (hsz32 : ∀ q ∈ pre ++ (bsz, false) :: (nsz, false) :: post', 32 ≤ q.1)
    (hiff : ∀ p ∈ blocksFrom (pro + 8) (pre ++ (bsz, false) :: (nsz, false) :: post'),
        p.1 ≠ pro + 8 + sumSizes pre →
        (p.2.2 = false ↔ p.1 ∈ xs ++ (pro + 8 + sumSizes pre + bsz) :: ys))
    (hsub : ∀ u ∈ xs ++ (pro + 8 + sumSizes pre + bsz) :: ys,
        ∃ p ∈ blocksFrom (pro + 8) (pre ++ (bsz, false) :: (nsz, false) :: post'),
        p.1 = u ∧ p.2.2 = false ∧ u ≠ pro + 8 + sumSizes pre)
    (hnodup : (xs ++ (pro + 8 + sumSizes pre + bsz) :: ys).Nodup)
    (hnoadjpre : noAdjacentFree pre) (hnoadjpost : noAdjacentFree post')
    (hpreA : ∀ p, pre.getLast? = some p → p.2 = true)
    (hpostA : ∀ q, post'.head? = some q → q.2 = true) :
    (∀ p ∈ blocksFrom (pro + 8) (pre ++ (bsz + nsz, false) :: post'),
        (p.2.2 = false ↔ p.1 ∈ (pro + 8 + sumSizes pre) :: (xs ++ ys))) ∧
    (∀ u ∈ (pro + 8 + sumSizes pre) :: (xs ++ ys),
        ∃ p ∈ blocksFrom (pro + 8) (pre ++ (bsz + nsz, false) :: post'),
        p.1 = u ∧ p.2.2 = false) ∧
    ((pro + 8 + sumSizes pre) :: (xs ++ ys)).Nodup ∧
    noAdjacentFree (pre ++ (bsz + nsz, false) :: post') := by
  set b := pro + 8 + sumSizes pre with hbdef
  set nb := b + bsz with hnbdef
  have hold : blocksFrom (pro + 8) (pre ++ (bsz, false) :: (nsz, false) :: post')
      = blocksFrom (pro + 8) pre ++ (b, bsz, false) :: (nb, nsz, false)
          :: blocksFrom (nb + nsz) post' := by
    rw [blocksFrom_append, hbdef, hnbdef]
    rfl
  have hnew : blocksFrom (pro + 8) (pre ++ (bsz + nsz, false) :: post')
      = blocksFrom (pro + 8) pre ++ (b, bsz + nsz, false)
          :: blocksFrom (b + (bsz + nsz)) post' := by
    rw [blocksFrom_append, hbdef]
    rfl
  have htail : b + (bsz + nsz) = nb + nsz := by omega
  have h32b : 32 ≤ bsz := hsz32 (bsz, false) (by simp)
  have h32n : 32 ≤ nsz := hsz32 (nsz, false) (by simp)
  -- list membership facts
  obtain ⟨hnxs, hncons, hndisj⟩ := List.nodup_append.mp hnodup
  have hnb_nxs : nb ∉ xs := fun h => hndisj h (List.mem_cons_self _ _)
  have hnb_nys : nb ∉ ys := (List.nodup_cons.mp hncons).1
  have hnys : ys.Nodup := (List.nodup_cons.mp hncons).2
  have hmem_old : ∀ u, u ∈ xs ++ ys → u ∈ xs ++ nb :: ys := by
    intro u hu
    rcases List.mem_append.mp hu with h | h
    · exact List.mem_append_left _ h
    · exact List.mem_append_right _ (List.mem_cons_of_mem _ h)
  have hne_nb : ∀ u, u ∈ xs ++ ys → u ≠ nb := by
    intro u hu hEq
    subst hEq
    rcases List.mem_append.mp hu with h | h
    · exact hnb_nxs h
    · exact hnb_nys h
  have hb_notin : b ∉ xs ++ ys := by
    intro h
    obtain ⟨p, hp, hp1, hpf, hpb⟩ := hsub b (hmem_old b h)
    exact hpb rfl
  have hnodup' : (b :: (xs ++ ys)).Nodup := by
    refine List.nodup_cons.mpr ⟨hb_notin, ?_⟩
    exact List.nodup_append.mpr ⟨hnxs, hnys,
      fun a ha ha' => hndisj ha (List.mem_cons_of_mem _ ha')⟩
  refine ⟨?_, ?_, hnodup', ?_⟩
  · intro p hp
    rw [hnew] at hp
    rcases List.mem_append.mp hp with hpL | hpR
    · have hb1 := blocksFrom_bounds (pro + 8) pre p hpL
      have h32 : 32 ≤ p.2.1 :=
        hsz32 (p.2.1, p.2.2) (List.mem_append_left _ (blocksFrom_mem_pair _ _ _ hpL))
      have hpold : p ∈ blocksFrom (pro + 8) (pre ++ (bsz, false) :: (nsz, false) :: post') := by
        rw [hold]
        exact List.mem_append_left _ hpL
      have hpne : p.1 ≠ b := by omega
      have hpnb : p.1 ≠ nb := by omega
      rw [List.mem_cons]
      constructor
      · intro hf
        have hm := (hiff p hpold hpne).mp hf
        rcases List.mem_append.mp hm with h | h
        · exact Or.inr (List.mem_append_left _ h)
        · rcases List.mem_cons.mp h with h | h
          · exact absurd h hpnb
          · exact Or.inr (List.mem_append_right _ h)
      · rintro (h | h)
        · exact absurd h hpne
        · exact (hiff p hpold hpne).mpr (hmem_old _ h)
    · rcases List.mem_cons.mp hpR with rfl | hpT
      · simp
      · have hb1 := blocksFrom_bounds (b + (bsz + nsz)) post' p hpT
        have h32 : 32 ≤ p.2.1 := by
          refine hsz32 (p.2.1, p.2.2) (by
            refine List.mem_append_right _ (List.mem_cons_of_mem _ (List.mem_cons_of_mem _ ?_))
            exact blocksFrom_mem_pair _ _ _ hpT)
        have hpold : p ∈ blocksFrom (pro + 8) (pre ++ (bsz, false) :: (nsz, false) :: post') := by
          rw [hold]
          rw [htail] at hpT
          exact List.mem_append_right _
            (List.mem_cons_of_mem _ (List.mem_cons_of_mem _ hpT))
        have hpne : p.1 ≠ b := by omega
        have hpnb : p.1 ≠ nb := by omega
        rw [List.mem_cons]
        constructor
        · intro hf
          have hm := (hiff p hpold hpne).mp hf
          rcases List.mem_append.mp hm with h | h
          · exact Or.inr (List.mem_append_left _ h)
          · rcases List.mem_cons.mp h with h | h
            · exact absurd h hpnb
            · exact Or.inr (List.mem_append_right _ h)
        · rintro (h | h)
          · exact absurd h hpne
          · exact (hiff p hpold hpne).mpr (hmem_old _ h)
  · intro u hu
    rcases List.mem_cons.mp hu with rfl | hu
    · refine ⟨(b, bsz + nsz, false), ?_, rfl, rfl⟩
      rw [hnew]
      exact List.mem_append_right _ (List.mem_cons_self _ _)
    · obtain ⟨p, hp, hp1, hpf, hpb⟩ := hsub u (hmem_old u hu)
      rw [hold] at hp
      rcases List.mem_append.mp hp with h | h
      · exact ⟨p, by rw [hnew]; exact List.mem_append_left _ h, hp1, hpf⟩
      · rcases List.mem_cons.mp h with rfl | h
        · exact absurd hp1.symm hpb
        · rcases List.mem_cons.mp h with rfl | h
          · exact absurd ((hne_nb u hu) hp1.symm) not_false
          · refine ⟨p, ?_, hp1, hpf⟩
            rw [hnew]
            rw [htail]
            exact List.mem_append_right _ (List.mem_cons_of_mem _ h)
  · refine noAdjacentFree_append pre post' (bsz + nsz) false hnoadjpre hnoadjpost ?_ ?_
    · intro p hp
      rw [hpreA p hp]
      simp
    · intro q hq
      rw [hpostA q hq]
      simp

end MM
